import Mathlib

/-!
Verification of the floor-plan chair counter (src/main.py).

The grid is a rectangular 2D character array.  Cells are addressed by
`Pos R C = Fin R × Fin C` (row, column), mirroring in-bounds numpy indexing.
Stateful numpy/BFS code is embedded as explicit state passing; the final
array produced by a BFS flood fill is computed as a saturation of a
one-step growth operator, which yields the same final array as the
queue-based loop in the source (the queue order only affects the visit
order, never the resulting labels).
-/

/-- Wall glyphs, from `WALL_CHARS = {"+", "-", "|", "/"}` in src/main.py. -/
def WALL_CHARS : List Char := ['+', '-', '|', '/']

/-- Chair type codes, from `CHAIR_TYPES = ["W", "P", "S", "C"]` in src/main.py. -/
def CHAIR_TYPES : List Char := ['W', 'P', 'S', 'C']

/-- Per-type chair counts, one field per element of `CHAIR_TYPES` in order. -/
structure Counts where
  W : Nat
  P : Nat
  S : Nat
  C : Nat
deriving DecidableEq

/-- The all-zero count record (initial totals in `count_chairs`). -/
def Counts.zero : Counts := ⟨0, 0, 0, 0⟩

/-- Pointwise addition of counts (`total[ch] += counts[ch]` in `count_chairs`). -/
def countsAdd (a b : Counts) : Counts := ⟨a.W + b.W, a.P + b.P, a.S + b.S, a.C + b.C⟩

/-- Look up one chair type's count (`counts[ch]`). -/
def countsGet (c : Counts) (ch : Char) : Nat :=
  if ch = 'W' then c.W else if ch = 'P' then c.P else if ch = 'S' then c.S
  else if ch = 'C' then c.C else 0

/-- In-bounds cell positions of an `R × C` grid. -/
abbrev Pos (R C : Nat) := Fin R × Fin C

/-- Row-major index of a position (`row * C + col`). -/
def idx {R C : Nat} (p : Pos R C) : Nat := p.1.val * C + p.2.val

/-- 4-directional adjacency (scipy structure `[[0,1,0],[1,1,1],[0,1,0]]`;
the `(-1,0),(1,0),(0,-1),(0,1)` offsets of `flood_fill`). -/
def Adj {R C : Nat} (p q : Pos R C) : Prop :=
  (p.1 = q.1 ∧ (p.2.val + 1 = q.2.val ∨ q.2.val + 1 = p.2.val)) ∨
  (p.2 = q.2 ∧ (p.1.val + 1 = q.1.val ∨ q.1.val + 1 = p.1.val))

instance {R C : Nat} (p q : Pos R C) : Decidable (Adj p q) := by
  unfold Adj; infer_instance

theorem adj_symm {R C : Nat} {p q : Pos R C} (h : Adj p q) : Adj q p := by
  rcases h with ⟨h1, h2⟩ | ⟨h1, h2⟩
  · exact Or.inl ⟨h1.symm, h2.symm⟩
  · exact Or.inr ⟨h1.symm, h2.symm⟩

/-- Character stored at an in-bounds position of a grid given as a list of rows. -/
def cellAt {R C : Nat} (g : List (List Char)) (p : Pos R C) : Char :=
  (g.getD p.1.val []).getD p.2.val ' '

/-- The grid is rectangular with `R` rows of width `C` (the Grid Loader's
postcondition; `parse_floor_plan` pads rows to equal length). -/
def Rect (g : List (List Char)) (R C : Nat) : Prop :=
  g.length = R ∧ ∀ row ∈ g, row.length = C

/-- Walkability Classifier: `np.isin(room_array, list(WALL_CHARS), invert=True)`
from src/main.py line 146 — a cell is walkable iff its character is not a wall glyph. -/
def walkableOf {R C : Nat} (g : List (List Char)) : Pos R C → Bool :=
  fun p => !(WALL_CHARS.contains (cellAt g p))

/-! ### Saturation of a growth operator

Both the library component labeling and the hand-written `flood_fill` are
BFS traversals; their final arrays are the saturation of "add every cell
one step away from the current set".  Iterating the growth operator
`Fintype.card` many times is guaranteed to reach the fixpoint. -/

/-- Iterate a growth operator until it must have stabilized. -/
def sat {P : Type} [Fintype P] [DecidableEq P] (f : Finset P → Finset P) (s : Finset P) :
    Finset P :=
  f^[Fintype.card P] s

theorem subset_iterate {P : Type} [DecidableEq P] (f : Finset P → Finset P)
    (hf : ∀ t, t ⊆ f t) (s : Finset P) : ∀ n, s ⊆ f^[n] s := by
  intro n
  induction n with
  | zero => simp
  | succ n ih =>
      calc s ⊆ f^[n] s := ih
        _ ⊆ f (f^[n] s) := hf _
        _ = f^[n+1] s := (Function.iterate_succ_apply' f n s).symm

theorem subset_sat {P : Type} [Fintype P] [DecidableEq P] (f : Finset P → Finset P)
    (hf : ∀ t, t ⊆ f t) (s : Finset P) : s ⊆ sat f s :=
  subset_iterate f hf s _

theorem iterate_card_grow {P : Type} [DecidableEq P] (f : Finset P → Finset P)
    (hf : ∀ t, t ⊆ f t) (s : Finset P) :
    ∀ n, (∀ k < n, f^[k+1] s ≠ f^[k] s) → n ≤ (f^[n] s).card := by
  intro n
  induction n with
  | zero => intro _; exact Nat.zero_le _
  | succ n ih =>
      intro h
      have hn : n ≤ (f^[n] s).card := ih (fun k hk => h k (Nat.lt_succ_of_lt hk))
      have hsub : f^[n] s ⊆ f^[n+1] s := by
        rw [Function.iterate_succ_apply' f n s]; exact hf _
      have hne : f^[n+1] s ≠ f^[n] s := h n (Nat.lt_succ_self n)
      have hss : f^[n] s ⊂ f^[n+1] s := ⟨hsub, fun hba => hne (le_antisymm hba hsub)⟩
      have := Finset.card_lt_card hss
      omega

theorem exists_stable {P : Type} [Fintype P] [DecidableEq P] (f : Finset P → Finset P)
    (hf : ∀ t, t ⊆ f t) (s : Finset P) :
    ∃ k ≤ Fintype.card P, f^[k+1] s = f^[k] s := by
  by_contra h
  push_neg at h
  have hgrow : ∀ k < Fintype.card P + 1, f^[k+1] s ≠ f^[k] s := by
    intro k hk
    exact h k (Nat.lt_succ_iff.mp hk)
  have hcard := iterate_card_grow f hf s (Fintype.card P + 1) hgrow
  have hle : (f^[Fintype.card P + 1] s).card ≤ Fintype.card P := Finset.card_le_univ _
  omega

theorem stable_after {P : Type} [DecidableEq P] (f : Finset P → Finset P) (s : Finset P)
    {k : Nat} (h : f^[k+1] s = f^[k] s) : ∀ m, k ≤ m → f^[m] s = f^[k] s := by
  intro m hm
  induction m with
  | zero =>
      have : k = 0 := Nat.le_zero.mp hm
      rw [this]
  | succ m ih =>
      rcases Nat.lt_or_ge k (m+1) with hlt | hge
      · have hkm : k ≤ m := Nat.lt_succ_iff.mp hlt
        have hm' := ih hkm
        calc f^[m+1] s = f (f^[m] s) := Function.iterate_succ_apply' f m s
          _ = f (f^[k] s) := by rw [hm']
          _ = f^[k+1] s := (Function.iterate_succ_apply' f k s).symm
          _ = f^[k] s := h
      · have : k = m + 1 := le_antisymm hm hge
        rw [this]

theorem sat_fixed {P : Type} [Fintype P] [DecidableEq P] (f : Finset P → Finset P)
    (hf : ∀ t, t ⊆ f t) (s : Finset P) : f (sat f s) = sat f s := by
  obtain ⟨k, hk, hstab⟩ := exists_stable f hf s
  have h1 : f^[Fintype.card P] s = f^[k] s := stable_after f s hstab _ hk
  have h2 : f^[Fintype.card P + 1] s = f^[k] s :=
    stable_after f s hstab _ (Nat.le_succ_of_le hk)
  calc f (sat f s) = f (f^[Fintype.card P] s) := rfl
    _ = f^[Fintype.card P + 1] s := (Function.iterate_succ_apply' f _ s).symm
    _ = f^[k] s := h2
    _ = f^[Fintype.card P] s := h1.symm
    _ = sat f s := rfl

/-! ### Connected components of the walkable mask -/

/-- One growth step of a component: add every walkable cell 4-adjacent to the set. -/
def compGrow {R C : Nat} (w : Pos R C → Bool) (s : Finset (Pos R C)) : Finset (Pos R C) :=
  s ∪ Finset.univ.filter (fun q => w q = true ∧ ∃ r ∈ s, Adj r q)

/-- The 4-connected walkable component of `p` (computed by saturated growth). -/
def comp {R C : Nat} (w : Pos R C → Bool) (p : Pos R C) : Finset (Pos R C) :=
  sat (compGrow w) {p}

/-- Connectivity by a path of walkable cells under 4-directional adjacency,
the spec's notion for §4.3 "connected by a path of `true` cells". -/
def ReachW {R C : Nat} (w : Pos R C → Bool) (p q : Pos R C) : Prop :=
  Relation.ReflTransGen (fun a b => w a = true ∧ w b = true ∧ Adj a b) p q

theorem reachW_symm {R C : Nat} {w : Pos R C → Bool} {p q : Pos R C}
    (h : ReachW w p q) : ReachW w q p := by
  refine Relation.ReflTransGen.symmetric ?_ h
  intro a b ⟨h1, h2, h3⟩
  exact ⟨h2, h1, adj_symm h3⟩

theorem reachW_trans {R C : Nat} {w : Pos R C → Bool} {p q r : Pos R C}
    (h1 : ReachW w p q) (h2 : ReachW w q r) : ReachW w p r :=
  Relation.ReflTransGen.trans h1 h2

theorem reachW_walkable_right {R C : Nat} {w : Pos R C → Bool} {p q : Pos R C}
    (h : ReachW w p q) : p = q ∨ w q = true := by
  induction h with
  | refl => exact Or.inl rfl
  | tail _ hstep _ => exact Or.inr hstep.2.1

theorem subset_compGrow {R C : Nat} (w : Pos R C → Bool) :
    ∀ s : Finset (Pos R C), s ⊆ compGrow w s := by
  intro s
  exact Finset.subset_union_left

theorem mem_comp_self {R C : Nat} (w : Pos R C → Bool) (p : Pos R C) : p ∈ comp w p :=
  subset_sat (compGrow w) (subset_compGrow w) {p} (Finset.mem_singleton_self p)

theorem mem_iterate_walkable {R C : Nat} {w : Pos R C → Bool} {p : Pos R C}
    (hp : w p = true) :
    ∀ n, ∀ q ∈ (compGrow w)^[n] {p}, w q = true := by
  intro n
  induction n with
  | zero =>
      intro q hq
      rw [Function.iterate_zero_apply, Finset.mem_singleton] at hq
      rw [hq]; exact hp
  | succ n ih =>
      intro q hq
      rw [Function.iterate_succ_apply', compGrow, Finset.mem_union] at hq
      rcases hq with hq | hq
      · exact ih q hq
      · exact (Finset.mem_filter.mp hq).2.1

theorem mem_comp_walkable {R C : Nat} {w : Pos R C → Bool} {p q : Pos R C}
    (hp : w p = true) (hq : q ∈ comp w p) : w q = true :=
  mem_iterate_walkable hp _ q hq

theorem reachW_of_mem_comp {R C : Nat} {w : Pos R C → Bool} {p : Pos R C}
    (hp : w p = true) : ∀ q ∈ comp w p, ReachW w p q := by
  have key : ∀ n, ∀ q ∈ (compGrow w)^[n] {p}, ReachW w p q := by
    intro n
    induction n with
    | zero =>
        intro q hq
        rw [Function.iterate_zero_apply, Finset.mem_singleton] at hq
        rw [hq]
        exact Relation.ReflTransGen.refl
    | succ n ih =>
        intro q hq
        rw [Function.iterate_succ_apply', compGrow, Finset.mem_union] at hq
        rcases hq with hq | hq
        · exact ih q hq
        · rcases Finset.mem_filter.mp hq with ⟨-, hwq, r, hr, hadj⟩
          exact Relation.ReflTransGen.tail (ih r hr)
            ⟨mem_iterate_walkable hp n r hr, hwq, hadj⟩
  exact key _

theorem mem_comp_of_reachW {R C : Nat} {w : Pos R C → Bool} {p q : Pos R C}
    (h : ReachW w p q) : q ∈ comp w p := by
  induction h with
  | refl => exact mem_comp_self w p
  | tail _ hstep ih =>
      rename_i b c _
      have hfix := sat_fixed (compGrow w) (subset_compGrow w) ({p} : Finset (Pos R C))
      have : c ∈ compGrow w (comp w p) := by
        rw [compGrow, Finset.mem_union]
        right
        exact Finset.mem_filter.mpr ⟨Finset.mem_univ c, hstep.2.1, b, ih, hstep.2.2⟩
      unfold comp at this ⊢
      rwa [hfix] at this

theorem mem_comp_iff {R C : Nat} {w : Pos R C → Bool} {p : Pos R C}
    (hp : w p = true) (q : Pos R C) : q ∈ comp w p ↔ ReachW w p q :=
  ⟨fun h => reachW_of_mem_comp hp q h, mem_comp_of_reachW⟩

theorem comp_eq_of_reachW {R C : Nat} {w : Pos R C → Bool} {p q : Pos R C}
    (hp : w p = true) (hq : w q = true) (h : ReachW w p q) : comp w p = comp w q := by
  ext x
  rw [mem_comp_iff hp, mem_comp_iff hq]
  constructor
  · intro hx; exact reachW_trans (reachW_symm h) hx
  · intro hx; exact reachW_trans h hx

/-! ### Row-major representatives of components -/

theorem idx_lt {R C : Nat} (p : Pos R C) : idx p < R * C := by
  have h1 : p.1.val + 1 ≤ R := p.1.isLt
  have h2 : p.2.val < C := p.2.isLt
  calc idx p = p.1.val * C + p.2.val := rfl
    _ < p.1.val * C + C := by omega
    _ = (p.1.val + 1) * C := by ring
    _ ≤ R * C := Nat.mul_le_mul_right C h1

theorem idx_injective {R C : Nat} {p q : Pos R C} (h : idx p = idx q) : p = q := by
  have hC : 0 < C := Nat.lt_of_le_of_lt (Nat.zero_le _) p.2.isLt
  have h2p : p.2.val < C := p.2.isLt
  have h2q : q.2.val < C := q.2.isLt
  have hdiv : (p.1.val * C + p.2.val) / C = (q.1.val * C + q.2.val) / C := by rw [idx, idx] at h; rw [h]
  have hp : (p.1.val * C + p.2.val) / C = p.1.val := by
    rw [Nat.mul_comm p.1.val C, Nat.mul_add_div hC, Nat.div_eq_of_lt h2p, Nat.add_zero]
  have hq : (q.1.val * C + q.2.val) / C = q.1.val := by
    rw [Nat.mul_comm q.1.val C, Nat.mul_add_div hC, Nat.div_eq_of_lt h2q, Nat.add_zero]
  have h1 : p.1.val = q.1.val := by rw [← hp, ← hq, hdiv]
  have h2 : p.2.val = q.2.val := by
    rw [idx, idx, h1] at h
    omega
  have e1 : p.1 = q.1 := Fin.ext h1
  have e2 : p.2 = q.2 := Fin.ext h2
  exact Prod.ext e1 e2

theorem comp_nonempty_image {R C : Nat} (w : Pos R C → Bool) (p : Pos R C) :
    ((comp w p).image idx).Nonempty :=
  Finset.Nonempty.image ⟨p, mem_comp_self w p⟩ idx

/-- Row-major index of the first-scanned cell of `p`'s component: the cell at
which the row-major scan first discovers the component containing `p`. -/
def repIdx {R C : Nat} (w : Pos R C → Bool) (p : Pos R C) : Nat :=
  ((comp w p).image idx).min' (comp_nonempty_image w p)

theorem repIdx_le_idx {R C : Nat} (w : Pos R C → Bool) (p : Pos R C) :
    repIdx w p ≤ idx p :=
  Finset.min'_le _ _ (Finset.mem_image_of_mem idx (mem_comp_self w p))

theorem repIdx_lt {R C : Nat} (w : Pos R C → Bool) (p : Pos R C) :
    repIdx w p < R * C :=
  Nat.lt_of_le_of_lt (repIdx_le_idx w p) (idx_lt p)

theorem exists_rep_cell {R C : Nat} (w : Pos R C → Bool) (p : Pos R C) :
    ∃ r ∈ comp w p, idx r = repIdx w p := by
  have hmem := Finset.min'_mem ((comp w p).image idx) (comp_nonempty_image w p)
  rcases Finset.mem_image.mp hmem with ⟨r, hr, hidx⟩
  exact ⟨r, hr, hidx⟩

theorem repIdx_congr {R C : Nat} {w : Pos R C → Bool} {p q : Pos R C}
    (h : comp w p = comp w q) : repIdx w p = repIdx w q := by
  unfold repIdx
  congr 1
  rw [h]

theorem repIdx_eq_of_reachW {R C : Nat} {w : Pos R C → Bool} {p q : Pos R C}
    (hp : w p = true) (hq : w q = true) (h : ReachW w p q) : repIdx w p = repIdx w q :=
  repIdx_congr (comp_eq_of_reachW hp hq h)

theorem reachW_of_repIdx_eq {R C : Nat} {w : Pos R C → Bool} {p q : Pos R C}
    (hp : w p = true) (hq : w q = true) (h : repIdx w p = repIdx w q) : ReachW w p q := by
  obtain ⟨r, hr, hridx⟩ := exists_rep_cell w p
  obtain ⟨r', hr', hridx'⟩ := exists_rep_cell w q
  have : idx r = idx r' := by rw [hridx, hridx', h]
  have hrr : r = r' := idx_injective this
  have h1 : ReachW w p r := reachW_of_mem_comp hp r hr
  have h2 : ReachW w q r' := reachW_of_mem_comp hq r' hr'
  exact reachW_trans h1 (by rw [hrr]; exact reachW_symm h2)

/-- The first-scanned cell of a walkable component is its own representative. -/
theorem rep_cell_is_rep {R C : Nat} {w : Pos R C → Bool} {p r : Pos R C}
    (hp : w p = true) (hr : r ∈ comp w p) (hridx : idx r = repIdx w p) :
    w r = true ∧ repIdx w r = idx r := by
  have hwr : w r = true := mem_comp_walkable hp hr
  have hreach : ReachW w p r := reachW_of_mem_comp hp r hr
  have : repIdx w r = repIdx w p := repIdx_eq_of_reachW hwr hp (reachW_symm hreach)
  exact ⟨hwr, by rw [this, hridx]⟩

/-- Number of components whose first-scanned cell lies strictly before scan
position `t` (in row-major order): counts cells that are their own
component representative with index below `t`. -/
def repCount {R C : Nat} (w : Pos R C → Bool) (t : Nat) : Nat :=
  (Finset.univ.filter
    (fun r : Pos R C => w r = true ∧ repIdx w r = idx r ∧ idx r < t)).card

theorem repCount_succ_of_rep {R C : Nat} {w : Pos R C → Bool} {p : Pos R C}
    (hw : w p = true) (hrep : repIdx w p = idx p) {t : Nat} (ht : idx p = t) :
    repCount w (t + 1) = repCount w t + 1 := by
  unfold repCount
  have hset : Finset.univ.filter
      (fun r : Pos R C => w r = true ∧ repIdx w r = idx r ∧ idx r < t + 1) =
      insert p (Finset.univ.filter
      (fun r : Pos R C => w r = true ∧ repIdx w r = idx r ∧ idx r < t)) := by
    ext x
    simp only [Finset.mem_filter, Finset.mem_univ, true_and, Finset.mem_insert]
    constructor
    · rintro ⟨hx1, hx2, hx3⟩
      rcases Nat.lt_succ_iff_lt_or_eq.mp hx3 with hlt | heq
      · exact Or.inr ⟨hx1, hx2, hlt⟩
      · left
        exact idx_injective (by rw [heq, ht])
    · rintro (rfl | ⟨hx1, hx2, hx3⟩)
      · exact ⟨hw, hrep, by omega⟩
      · exact ⟨hx1, hx2, by omega⟩
  rw [hset, Finset.card_insert_of_not_mem]
  simp only [Finset.mem_filter, Finset.mem_univ, true_and, not_and]
  intro _ _
  omega

theorem repCount_succ_of_no_rep {R C : Nat} {w : Pos R C → Bool} {t : Nat}
    (h : ∀ r : Pos R C, idx r = t → ¬(w r = true ∧ repIdx w r = idx r)) :
    repCount w (t + 1) = repCount w t := by
  unfold repCount
  congr 1
  ext x
  simp only [Finset.mem_filter, Finset.mem_univ, true_and]
  constructor
  · rintro ⟨hx1, hx2, hx3⟩
    refine ⟨hx1, hx2, ?_⟩
    rcases Nat.lt_succ_iff_lt_or_eq.mp hx3 with hlt | heq
    · exact hlt
    · exact absurd ⟨hx1, hx2⟩ (h x heq)
  · rintro ⟨hx1, hx2, hx3⟩
    exact ⟨hx1, hx2, by omega⟩

theorem repCount_strict_mono {R C : Nat} {w : Pos R C → Bool} {p : Pos R C}
    (hw : w p = true) (hrep : repIdx w p = idx p) {t : Nat} (ht : idx p < t) :
    repCount w (idx p) < repCount w t := by
  unfold repCount
  apply Finset.card_lt_card
  constructor
  · intro x hx
    simp only [Finset.mem_filter, Finset.mem_univ, true_and] at hx ⊢
    exact ⟨hx.1, hx.2.1, by omega⟩
  · intro hsub
    have hp : p ∈ Finset.univ.filter
        (fun r : Pos R C => w r = true ∧ repIdx w r = idx r ∧ idx r < t) := by
      simp only [Finset.mem_filter, Finset.mem_univ, true_and]
      exact ⟨hw, hrep, ht⟩
    have := hsub hp
    simp only [Finset.mem_filter, Finset.mem_univ, true_and] at this
    omega

/-! ### The Region Labeler -/

/-- All in-bounds positions in row-major order. -/
def allPos (R C : Nat) : List (Pos R C) :=
  (List.range (R * C)).pmap
    (fun n h =>
      (⟨n / C, by
          have hC : 0 < C := Nat.pos_of_ne_zero (by rintro rfl; simp at h)
          exact (Nat.div_lt_iff_lt_mul hC).mpr h⟩,
       ⟨n % C, by
          have hC : 0 < C := Nat.pos_of_ne_zero (by rintro rfl; simp at h)
          exact Nat.mod_lt n hC⟩))
    (fun n hn => List.mem_range.mp hn)

theorem allPos_map_idx (R C : Nat) : (allPos R C).map idx = List.range (R * C) := by
  unfold allPos
  rw [List.map_pmap]
  have hid : List.pmap (fun (n : Nat) (x : n < R * C) => n) (List.range (R * C))
      (fun n hn => List.mem_range.mp hn) = List.range (R * C) := by
    rw [List.pmap_eq_map]
    simp
  refine Eq.trans ?_ hid
  apply List.pmap_congr_left
  intro n hn h1 h2
  show idx _ = n
  unfold idx
  show n / C * C + n % C = n
  rw [Nat.mul_comm]
  exact Nat.div_add_mod n C

theorem allPos_length (R C : Nat) : (allPos R C).length = R * C := by
  have := congrArg List.length (allPos_map_idx R C)
  simpa using this

/-- One step of the row-major labeling scan: when the scanned cell is
walkable and still unlabeled, flood its whole component with the next
label and increment the label counter; otherwise the state is unchanged. -/
def scanStep {R C : Nat} (w : Pos R C → Bool) (st : (Pos R C → Nat) × Nat) (p : Pos R C) :
    (Pos R C → Nat) × Nat :=
  if w p = true ∧ st.1 p = 0 then
    ((fun q => if q ∈ comp w p then st.2 else st.1 q), st.2 + 1)
  else st

/-- Modelled from the spec: `scipy.ndimage.label(walkable, structure=[[0,1,0],[1,1,1],[0,1,0]])`
called at src/main.py line 151 is a library component whose source is not
part of this repository.  Per §4.3 of the spec it performs a deterministic
full scan of the grid in row-major order, flood-filling every newly
discovered seed's whole 4-connected component with the next label,
labels starting at 1; non-walkable cells keep label 0. -/
def labelArr {R C : Nat} (w : Pos R C → Bool) : (Pos R C → Nat) × Nat :=
  (allPos R C).foldl (scanStep w) ((fun _ => 0), 1)

/-- The Label Grid entry at position `p`. -/
def labelAt {R C : Nat} (w : Pos R C → Bool) (p : Pos R C) : Nat := (labelArr w).1 p

/-- Scan invariant after processing all positions with row-major index below `t`:
the next free label is `1 + repCount w t`, every walkable cell whose component
was already discovered carries `1 + repCount w (repIdx w q)`, and every other
cell still carries 0. -/
def ScanInv {R C : Nat} (w : Pos R C → Bool) (t : Nat) (st : (Pos R C → Nat) × Nat) : Prop :=
  st.2 = 1 + repCount w t ∧
  ∀ q : Pos R C,
    (w q = true ∧ repIdx w q < t → st.1 q = 1 + repCount w (repIdx w q)) ∧
    (¬(w q = true ∧ repIdx w q < t) → st.1 q = 0)

theorem scanStep_inv {R C : Nat} {w : Pos R C → Bool} {t : Nat}
    {st : (Pos R C → Nat) × Nat} {p : Pos R C}
    (hinv : ScanInv w t st) (hidx : idx p = t) :
    ScanInv w (t + 1) (scanStep w st p) := by
  obtain ⟨hnext, hlab⟩ := hinv
  by_cases hcond : w p = true ∧ st.1 p = 0
  · have hwp := hcond.1
    have hple : repIdx w p ≤ t := hidx ▸ repIdx_le_idx w p
    have hrep : repIdx w p = idx p := by
      rcases Nat.lt_or_ge (repIdx w p) t with hlt | hge
      · exfalso
        have := (hlab p).1 ⟨hwp, hlt⟩
        rw [hcond.2] at this
        omega
      · omega
    have hrt : repIdx w p = t := hrep.trans hidx
    simp only [ScanInv, scanStep, if_pos hcond]
    refine ⟨?_, ?_⟩
    · show st.2 + 1 = 1 + repCount w (t + 1)
      rw [repCount_succ_of_rep hwp hrep hidx, hnext]
      omega
    · intro q
      constructor
      · rintro ⟨hwq, hqlt⟩
        by_cases hqm : q ∈ comp w p
        · have hreach : ReachW w p q := reachW_of_mem_comp hwp q hqm
          have hqq : repIdx w q = repIdx w p := (repIdx_eq_of_reachW hwp hwq hreach).symm
          show (if q ∈ comp w p then st.2 else st.1 q) = _
          rw [if_pos hqm, hqq, hrt, hnext]
        · have hlt : repIdx w q < t := by
            rcases Nat.lt_succ_iff_lt_or_eq.mp hqlt with h | h
            · exact h
            · exfalso
              obtain ⟨r, hr, hridx⟩ := exists_rep_cell w q
              have hrp : r = p := idx_injective (by rw [hridx, h, hidx])
              have hqp : ReachW w q p := by
                rw [← hrp]; exact reachW_of_mem_comp hwq r hr
              exact hqm (mem_comp_of_reachW (reachW_symm hqp))
          show (if q ∈ comp w p then st.2 else st.1 q) = _
          rw [if_neg hqm]
          exact (hlab q).1 ⟨hwq, hlt⟩
      · intro hnot
        by_cases hqm : q ∈ comp w p
        · exfalso
          have hwq : w q = true := mem_comp_walkable hwp hqm
          have hreach : ReachW w p q := reachW_of_mem_comp hwp q hqm
          have hqq : repIdx w q = repIdx w p := (repIdx_eq_of_reachW hwp hwq hreach).symm
          exact hnot ⟨hwq, by rw [hqq, hrt]; omega⟩
        · show (if q ∈ comp w p then st.2 else st.1 q) = 0
          rw [if_neg hqm]
          apply (hlab q).2
          rintro ⟨hwq, hlt⟩
          exact hnot ⟨hwq, by omega⟩
  · simp only [ScanInv, scanStep, if_neg hcond]
    have hnorep : ∀ r : Pos R C, idx r = t → ¬(w r = true ∧ repIdx w r = idx r) := by
      rintro r hrt ⟨hwr, hrrep⟩
      have hrp : r = p := idx_injective (by rw [hrt, hidx])
      subst hrp
      have hst : st.1 r ≠ 0 := fun h0 => hcond ⟨hwr, h0⟩
      have hcase : w r = true ∧ repIdx w r < t := by
        by_contra hh
        exact hst ((hlab r).2 hh)
      rw [hrrep, hrt] at hcase
      omega
    refine ⟨?_, ?_⟩
    · rw [repCount_succ_of_no_rep hnorep]
      exact hnext
    · intro q
      constructor
      · rintro ⟨hwq, hqlt⟩
        have hlt : repIdx w q < t := by
          rcases Nat.lt_succ_iff_lt_or_eq.mp hqlt with h | h
          · exact h
          · exfalso
            obtain ⟨r, hr, hridx⟩ := exists_rep_cell w q
            obtain ⟨hwr, hrrep⟩ := rep_cell_is_rep hwq hr hridx
            exact hnorep r (by rw [hridx, h]) ⟨hwr, hrrep⟩
        exact (hlab q).1 ⟨hwq, hlt⟩
      · intro hnot
        apply (hlab q).2
        rintro ⟨hwq, hlt⟩
        exact hnot ⟨hwq, by omega⟩

theorem scan_fold_inv {R C : Nat} (w : Pos R C → Bool) :
    ∀ (l : List (Pos R C)) (t : Nat) (st : (Pos R C → Nat) × Nat),
      ScanInv w t st → l.map idx = List.range' t l.length →
      ScanInv w (t + l.length) (l.foldl (scanStep w) st) := by
  intro l
  induction l with
  | nil =>
      intro t st h _
      simpa using h
  | cons p l ih =>
      intro t st hinv hmap
      rw [List.map_cons, List.length_cons, List.range'_succ] at hmap
      have hp : idx p = t := (List.cons.injEq _ _ _ _).mp hmap |>.1
      have hl : l.map idx = List.range' (t + 1) l.length :=
        (List.cons.injEq _ _ _ _).mp hmap |>.2
      have hstep := scanStep_inv hinv hp
      have := ih (t + 1) (scanStep w st p) hstep hl
      have harith : t + (p :: l).length = t + 1 + l.length := by
        simp only [List.length_cons]
        omega
      rw [List.foldl_cons, harith]
      exact this

theorem repCount_zero {R C : Nat} (w : Pos R C → Bool) : repCount w 0 = 0 := by
  unfold repCount
  convert Finset.card_empty
  ext x
  simp

theorem labelArr_inv {R C : Nat} (w : Pos R C → Bool) : ScanInv w (R * C) (labelArr w) := by
  have hinit : ScanInv w 0 ((fun _ => 0), 1) := by
    refine ⟨by rw [repCount_zero], ?_⟩
    intro q
    constructor
    · rintro ⟨_, h⟩; omega
    · intro _; rfl
  have hmap : (allPos R C).map idx = List.range' 0 (allPos R C).length := by
    rw [allPos_map_idx, allPos_length, List.range_eq_range']
  have := scan_fold_inv w (allPos R C) 0 _ hinit hmap
  rw [allPos_length] at this
  simpa using this

theorem labelAt_of_wall {R C : Nat} {w : Pos R C → Bool} {p : Pos R C}
    (hw : w p = false) : labelAt w p = 0 := by
  have h := (labelArr_inv w).2 p
  exact h.2 (by rintro ⟨h1, -⟩; rw [hw] at h1; cases h1)

theorem labelAt_of_walkable {R C : Nat} {w : Pos R C → Bool} {p : Pos R C}
    (hw : w p = true) : labelAt w p = 1 + repCount w (repIdx w p) := by
  have h := (labelArr_inv w).2 p
  exact h.1 ⟨hw, repIdx_lt w p⟩

theorem labelAt_pos {R C : Nat} {w : Pos R C → Bool} {p : Pos R C}
    (hw : w p = true) : 0 < labelAt w p := by
  rw [labelAt_of_walkable hw]
  omega

theorem labelAt_eq_iff {R C : Nat} {w : Pos R C → Bool} {p q : Pos R C}
    (hp : w p = true) (hq : w q = true) :
    labelAt w p = labelAt w q ↔ ReachW w p q := by
  rw [labelAt_of_walkable hp, labelAt_of_walkable hq]
  constructor
  · intro h
    have hcount : repCount w (repIdx w p) = repCount w (repIdx w q) := by omega
    have : repIdx w p = repIdx w q := by
      rcases Nat.lt_trichotomy (repIdx w p) (repIdx w q) with hlt | heq | hgt
      · exfalso
        obtain ⟨r, hr, hridx⟩ := exists_rep_cell w p
        obtain ⟨hwr, hrrep⟩ := rep_cell_is_rep hp hr hridx
        have := repCount_strict_mono hwr hrrep (show idx r < repIdx w q by omega)
        rw [hridx] at this
        omega
      · exact heq
      · exfalso
        obtain ⟨r, hr, hridx⟩ := exists_rep_cell w q
        obtain ⟨hwr, hrrep⟩ := rep_cell_is_rep hq hr hridx
        have := repCount_strict_mono hwr hrrep (show idx r < repIdx w p by omega)
        rw [hridx] at this
        omega
    exact reachW_of_repIdx_eq hp hq this
  · intro h
    rw [repIdx_eq_of_reachW hp hq h]

/-! ### The Chair Aggregator -/

/-- Number of cells carrying label `L` whose character is `ch`:
`np.sum(room_array[labels == room_label] == ch)` in `count_chairs`. -/
def regionCount {R C : Nat} (g : List (List Char)) (labels : Pos R C → Nat)
    (L : Nat) (ch : Char) : Nat :=
  (Finset.univ.filter (fun q : Pos R C => labels q = L ∧ cellAt g q = ch)).card

/-- Per-type counts of the region with label `L`
(`{ch: int(np.sum(room_array[mask] == ch)) for ch in CHAIR_TYPES}`). -/
def countsOfLabel {R C : Nat} (g : List (List Char)) (labels : Pos R C → Nat)
    (L : Nat) : Counts :=
  ⟨regionCount g labels L 'W', regionCount g labels L 'P',
   regionCount g labels L 'S', regionCount g labels L 'C'⟩

/-- Python dict assignment `m[k] = v`: overwrite in place if the key exists,
else append; iteration order is insertion order of first occurrence. -/
def dictInsert {α : Type} (m : List (String × α)) (k : String) (v : α) :
    List (String × α) :=
  if m.any (fun e => e.1 == k) then m.map (fun e => if e.1 == k then (k, v) else e)
  else m ++ [(k, v)]

/-- Chair Aggregator, from `count_chairs` in src/main.py: for each room look
up the label at its anchor, count each chair type over all cells with that
label, record the per-room counts and add them into the running totals. -/
def count_chairs {R C : Nat} (g : List (List Char)) (labels : Pos R C → Nat)
    (rooms : List (String × Pos R C)) : Counts × List (String × Counts) :=
  rooms.foldl (fun st r =>
    (countsAdd st.1 (countsOfLabel g labels (labels r.2)),
     dictInsert st.2 r.1 (countsOfLabel g labels (labels r.2))))
    (Counts.zero, [])

/-- Sum of a list of count records. -/
def sumCounts (l : List Counts) : Counts := l.foldr countsAdd Counts.zero

theorem countsAdd_zero (a : Counts) : countsAdd a Counts.zero = a := by
  cases a; simp [countsAdd, Counts.zero]

theorem zero_countsAdd (a : Counts) : countsAdd Counts.zero a = a := by
  cases a; simp [countsAdd, Counts.zero]

theorem countsAdd_assoc (a b c : Counts) :
    countsAdd (countsAdd a b) c = countsAdd a (countsAdd b c) := by
  cases a; cases b; cases c
  simp [countsAdd]
  omega

theorem countsGet_add (a b : Counts) (ch : Char) :
    countsGet (countsAdd a b) ch = countsGet a ch + countsGet b ch := by
  cases a; cases b
  unfold countsGet countsAdd
  split_ifs <;> simp

theorem countsGet_sum (l : List Counts) (ch : Char) :
    countsGet (sumCounts l) ch = (l.map (fun c => countsGet c ch)).sum := by
  induction l with
  | nil => cases ch; simp [sumCounts, countsGet, Counts.zero]
  | cons a l ih =>
      simp only [sumCounts, List.foldr_cons, List.map_cons, List.sum_cons]
      rw [countsGet_add]
      simp only [sumCounts] at ih
      rw [ih]

theorem dictInsert_fresh {α : Type} (m : List (String × α)) (k : String) (v : α)
    (h : ∀ e ∈ m, e.1 ≠ k) : dictInsert m k v = m ++ [(k, v)] := by
  unfold dictInsert
  rw [if_neg]
  simp only [List.any_eq_true, not_exists, not_and, Bool.not_eq_true]
  intro e he
  exact beq_eq_false_iff_ne.mpr (h e he)

theorem count_chairs_total_aux {R C : Nat} (g : List (List Char))
    (labels : Pos R C → Nat) :
    ∀ (rooms : List (String × Pos R C)) (acc : Counts) (accl : List (String × Counts)),
      (rooms.foldl (fun st r =>
        (countsAdd st.1 (countsOfLabel g labels (labels r.2)),
         dictInsert st.2 r.1 (countsOfLabel g labels (labels r.2)))) (acc, accl)).1 =
      countsAdd acc (sumCounts (rooms.map (fun r => countsOfLabel g labels (labels r.2)))) := by
  intro rooms
  induction rooms with
  | nil =>
      intro acc accl
      simp [sumCounts, countsAdd_zero]
  | cons r rooms ih =>
      intro acc accl
      rw [List.foldl_cons]
      rw [ih]
      simp only [List.map_cons, sumCounts, List.foldr_cons]
      rw [countsAdd_assoc]

theorem count_chairs_snd_aux {R C : Nat} (g : List (List Char))
    (labels : Pos R C → Nat) :
    ∀ (rooms : List (String × Pos R C)) (acc : Counts) (accl : List (String × Counts)),
      (rooms.map Prod.fst).Nodup →
      (∀ n ∈ rooms.map Prod.fst, n ∉ accl.map Prod.fst) →
      (rooms.foldl (fun st r =>
        (countsAdd st.1 (countsOfLabel g labels (labels r.2)),
         dictInsert st.2 r.1 (countsOfLabel g labels (labels r.2)))) (acc, accl)).2 =
      accl ++ rooms.map (fun r => (r.1, countsOfLabel g labels (labels r.2))) := by
  intro rooms
  induction rooms with
  | nil =>
      intro acc accl _ _
      simp
  | cons r rooms ih =>
      intro acc accl hnd hdisj
      rw [List.foldl_cons]
      have hfresh : ∀ e ∈ accl, e.1 ≠ r.1 := by
        intro e he hek
        have : r.1 ∈ accl.map Prod.fst := by
          rw [← hek]; exact List.mem_map_of_mem Prod.fst he
        exact hdisj r.1 (by simp) this
      rw [dictInsert_fresh _ _ _ hfresh]
      rw [List.map_cons, List.nodup_cons] at hnd
      have hdisj' : ∀ n ∈ rooms.map Prod.fst,
          n ∉ (accl ++ [(r.1, countsOfLabel g labels (labels r.2))]).map Prod.fst := by
        intro n hn
        simp only [List.map_append, List.mem_append, List.map_cons, List.map_nil,
          List.mem_singleton, not_or]
        constructor
        · exact hdisj n (by simp [hn])
        · intro he
          rw [he] at hn
          exact hnd.1 hn
      rw [ih _ _ hnd.2 hdisj']
      simp

theorem count_chairs_snd {R C : Nat} (g : List (List Char)) (labels : Pos R C → Nat)
    (rooms : List (String × Pos R C)) (hnd : (rooms.map Prod.fst).Nodup) :
    (count_chairs g labels rooms).2 =
      rooms.map (fun r => (r.1, countsOfLabel g labels (labels r.2))) := by
  have := count_chairs_snd_aux g labels rooms Counts.zero [] hnd (by simp)
  simpa [count_chairs] using this

theorem count_chairs_fst {R C : Nat} (g : List (List Char)) (labels : Pos R C → Nat)
    (rooms : List (String × Pos R C)) :
    (count_chairs g labels rooms).1 =
      sumCounts (rooms.map (fun r => countsOfLabel g labels (labels r.2))) := by
  have := count_chairs_total_aux g labels rooms Counts.zero []
  simpa [count_chairs, zero_countsAdd] using this

theorem lookup_map_rooms {R C : Nat} (g : List (List Char)) (labels : Pos R C → Nat) :
    ∀ (rooms : List (String × Pos R C)), (rooms.map Prod.fst).Nodup →
      ∀ {n : String} {p : Pos R C}, (n, p) ∈ rooms →
      (rooms.map (fun r => (r.1, countsOfLabel g labels (labels r.2)))).lookup n =
        some (countsOfLabel g labels (labels p)) := by
  intro rooms
  induction rooms with
  | nil =>
      intro _ n p h
      cases h
  | cons r rooms ih =>
      intro hnd n p hmem
      rw [List.map_cons, List.nodup_cons] at hnd
      rcases List.mem_cons.mp hmem with heq | hmem'
      · rw [← heq]
        simp [List.lookup]
      · have hne : r.1 ≠ n := by
          intro he
          apply hnd.1
          rw [he]
          exact List.mem_map_of_mem Prod.fst hmem'
        have hbeq : (n == r.1) = false := beq_eq_false_iff_ne.mpr (fun h => hne h.symm)
        simp only [List.map_cons, List.lookup, hbeq]
        exact ih hnd.2 hmem'

/-! ### The hand-written flood fill and `label_rooms` -/

/-- One growth step of the BFS in `flood_fill`: a cell holding value 1 is
relabeled when a 4-neighbor has been visited (the start cell counts as
visited from the beginning). -/
def ffGrow {R C : Nat} (a : Pos R C → Nat) (start : Pos R C) (s : Finset (Pos R C)) :
    Finset (Pos R C) :=
  s ∪ Finset.univ.filter (fun q => a q = 1 ∧ (Adj start q ∨ ∃ r ∈ s, Adj r q))

/-- Cells relabeled by the BFS of `flood_fill` starting at `start`. -/
def floodSet {R C : Nat} (a : Pos R C → Nat) (start : Pos R C) : Finset (Pos R C) :=
  sat (ffGrow a start) ∅

/-- The `flood_fill` of src/main.py: BFS from `start` over the four offsets
`(-1,0),(1,0),(0,-1),(0,1)`, overwriting every reached cell whose current
value is 1 with `label`.  The queue-based loop is embedded by its final
array: the set of overwritten cells is the saturation `floodSet`. -/
def flood_fill {R C : Nat} (a : Pos R C → Nat) (start : Pos R C) (label : Nat) :
    Pos R C → Nat :=
  fun q => if q ∈ floodSet a start then label else a q

/-- The `label_rooms` of src/main.py: start from `walkable.astype(int)`
(1 = walkable, 0 = wall), then flood fill from each room anchor in room
order with labels 2, 3, ... . -/
def label_rooms {R C : Nat} (w : Pos R C → Bool) (rooms : List (String × Pos R C)) :
    Pos R C → Nat :=
  (rooms.foldl (fun st r => (flood_fill st.1 r.2 st.2, st.2 + 1))
    ((fun p => if w p then 1 else 0), 2)).1

/-- Reachability from `start` by a nonempty 4-adjacent path whose cells
(after `start`) all hold value 1 — exactly the cells the BFS visits. -/
def Reach1 {R C : Nat} (a : Pos R C → Nat) (s q : Pos R C) : Prop :=
  ∃ r, Adj s r ∧ a r = 1 ∧
    Relation.ReflTransGen (fun x y => a x = 1 ∧ a y = 1 ∧ Adj x y) r q

theorem reach1_val {R C : Nat} {a : Pos R C → Nat} {s q : Pos R C}
    (h : Reach1 a s q) : a q = 1 := by
  obtain ⟨r, -, har, hrtg⟩ := h
  induction hrtg with
  | refl => exact har
  | tail _ hstep _ => exact hstep.2.1

theorem ffGrow_subset {R C : Nat} (a : Pos R C → Nat) (start : Pos R C) :
    ∀ s, s ⊆ ffGrow a start s := by
  intro s
  exact Finset.subset_union_left

theorem reach1_of_mem_floodSet {R C : Nat} {a : Pos R C → Nat} {start q : Pos R C}
    (h : q ∈ floodSet a start) : Reach1 a start q := by
  have key : ∀ n, ∀ x ∈ (ffGrow a start)^[n] (∅ : Finset (Pos R C)), Reach1 a start x := by
    intro n
    induction n with
    | zero =>
        intro x hx
        rw [Function.iterate_zero_apply] at hx
        cases hx
    | succ n ih =>
        intro x hx
        rw [Function.iterate_succ_apply', ffGrow, Finset.mem_union] at hx
        rcases hx with hx | hx
        · exact ih x hx
        · rcases Finset.mem_filter.mp hx with ⟨-, hax, hadj | ⟨r, hr, hadj⟩⟩
          · exact ⟨x, hadj, hax, Relation.ReflTransGen.refl⟩
          · obtain ⟨r0, h1, h2, hrtg⟩ := ih r hr
            exact ⟨r0, h1, h2,
              Relation.ReflTransGen.tail hrtg ⟨reach1_val ⟨r0, h1, h2, hrtg⟩, hax, hadj⟩⟩
  exact key _ q h

theorem mem_floodSet_of_reach1 {R C : Nat} {a : Pos R C → Nat} {start q : Pos R C}
    (h : Reach1 a start q) : q ∈ floodSet a start := by
  obtain ⟨r, hadj, har, hrtg⟩ := h
  have hfix := sat_fixed (ffGrow a start) (ffGrow_subset a start) (∅ : Finset (Pos R C))
  have hr : r ∈ floodSet a start := by
    have hmem : r ∈ ffGrow a start (floodSet a start) := by
      rw [ffGrow, Finset.mem_union]
      right
      exact Finset.mem_filter.mpr ⟨Finset.mem_univ r, har, Or.inl hadj⟩
    unfold floodSet at hmem ⊢
    rwa [hfix] at hmem
  clear har hadj
  induction hrtg with
  | refl => exact hr
  | tail hpre hstep ih =>
      rename_i x y
      have hmem : y ∈ ffGrow a start (floodSet a start) := by
        rw [ffGrow, Finset.mem_union]
        right
        exact Finset.mem_filter.mpr
          ⟨Finset.mem_univ y, hstep.2.1, Or.inr ⟨x, ih, hstep.2.2⟩⟩
      unfold floodSet at hmem ⊢
      rwa [hfix] at hmem

/-- Invariant of the `label_rooms` fold: every wall cell holds 0, every
walkable cell holds 1 or a room label `≥ 2` below the next free label,
cells holding a room label cover whole components uniformly, and a room
label determines the component. -/
def LRInv {R C : Nat} (w : Pos R C → Bool) (st : (Pos R C → Nat) × Nat) : Prop :=
  2 ≤ st.2 ∧
  (∀ q, st.1 q = 0 ↔ w q = false) ∧
  (∀ q, st.1 q < st.2) ∧
  (∀ q q', 2 ≤ st.1 q → ReachW w q q' → st.1 q' = st.1 q) ∧
  (∀ q q', 2 ≤ st.1 q → st.1 q = st.1 q' → ReachW w q q')

theorem LRInv_init {R C : Nat} (w : Pos R C → Bool) :
    LRInv w ((fun p => if w p then 1 else 0), 2) := by
  refine ⟨le_refl 2, ?_, ?_, ?_, ?_⟩
  · intro q
    by_cases h : w q <;> simp [h]
  · intro q
    by_cases h : w q <;> simp [h]
  · intro q q' h2 _
    by_cases h : w q <;> simp [h] at h2
  · intro q q' h2 _
    by_cases h : w q <;> simp [h] at h2

theorem walkable_of_val_ne_zero {R C : Nat} {w : Pos R C → Bool}
    {st : (Pos R C → Nat) × Nat} (hinv : LRInv w st) {q : Pos R C}
    (h : st.1 q ≠ 0) : w q = true := by
  rcases Bool.eq_false_or_eq_true (w q) with ht | hf
  · exact ht
  · exact absurd ((hinv.2.1 q).mpr hf) h

theorem floodSet_iff_reachW {R C : Nat} {w : Pos R C → Bool}
    {st : (Pos R C → Nat) × Nat} (hinv : LRInv w st) {a : Pos R C}
    (hwa : w a = true) (hva : st.1 a = 1) (hnb : ∃ b, Adj a b ∧ w b = true) :
    ∀ q, q ∈ floodSet st.1 a ↔ ReachW w a q := by
  obtain ⟨hn2, hzero, hlt, hunif, hinj⟩ := hinv
  have hcomp1 : ∀ q, ReachW w a q → st.1 q = 1 := by
    intro q hq
    have hwq : w q = true := by
      rcases reachW_walkable_right hq with rfl | h
      · exact hwa
      · exact h
    have h0 : st.1 q ≠ 0 := fun h0 => by
      rw [(hzero q).mp h0] at hwq
      cases hwq
    rcases Nat.lt_or_ge (st.1 q) 2 with hl | hh
    · omega
    · exfalso
      have := hunif q a hh (reachW_symm hq)
      omega
  intro q
  constructor
  · intro hmem
    obtain ⟨r, hadj, har, hrtg⟩ := reach1_of_mem_floodSet hmem
    have hwr : w r = true :=
      walkable_of_val_ne_zero ⟨hn2, hzero, hlt, hunif, hinj⟩ (by omega)
    have hmono : ReachW w r q := by
      refine Relation.ReflTransGen.mono ?_ hrtg
      intro x y ⟨hx, hy, hxy⟩
      refine ⟨?_, ?_, hxy⟩
      · exact walkable_of_val_ne_zero ⟨hn2, hzero, hlt, hunif, hinj⟩ (by omega)
      · exact walkable_of_val_ne_zero ⟨hn2, hzero, hlt, hunif, hinj⟩ (by omega)
    exact Relation.ReflTransGen.head ⟨hwa, hwr, hadj⟩ hmono
  · intro hq
    obtain ⟨b, hab, hwb⟩ := hnb
    have hb1 : st.1 b = 1 := hcomp1 b (Relation.ReflTransGen.single ⟨hwa, hwb, hab⟩)
    apply mem_floodSet_of_reach1
    induction hq with
    | refl =>
        exact ⟨b, hab, hb1,
          Relation.ReflTransGen.single ⟨hb1, hva, adj_symm hab⟩⟩
    | tail hpre hstep ih =>
        rename_i x y
        obtain ⟨r, h1, h2, hrtg⟩ := ih
        have hx1 : st.1 x = 1 := hcomp1 x hpre
        have hy1 : st.1 y = 1 := hcomp1 y (Relation.ReflTransGen.tail hpre hstep)
        exact ⟨r, h1, h2, Relation.ReflTransGen.tail hrtg ⟨hx1, hy1, hstep.2.2⟩⟩

theorem flood_fill_preserve {R C : Nat} (a : Pos R C → Nat) (start : Pos R C)
    (label : Nat) {q : Pos R C} (h : a q ≠ 1) :
    flood_fill a start label q = a q := by
  unfold flood_fill
  rw [if_neg]
  intro hmem
  exact h (reach1_val (reach1_of_mem_floodSet hmem))

theorem label_rooms_step {R C : Nat} {w : Pos R C → Bool} {st : (Pos R C → Nat) × Nat}
    (hinv : LRInv w st) {a : Pos R C} (hwa : w a = true)
    (hnb : ∃ b, Adj a b ∧ w b = true) :
    LRInv w (flood_fill st.1 a st.2, st.2 + 1) ∧ 2 ≤ flood_fill st.1 a st.2 a := by
  obtain ⟨hn2, hzero, hlt, hunif, hinj⟩ := hinv
  rcases Nat.lt_or_ge (st.1 a) 2 with hlow | hhigh
  · have hva : st.1 a = 1 := by
      have h0 : st.1 a ≠ 0 := by
        intro h0
        rw [(hzero a).mp h0] at hwa
        cases hwa
      omega
    have hchar := floodSet_iff_reachW ⟨hn2, hzero, hlt, hunif, hinj⟩ hwa hva hnb
    have hvalT : ∀ q, ReachW w a q → flood_fill st.1 a st.2 q = st.2 := by
      intro q h
      unfold flood_fill
      rw [if_pos ((hchar q).mpr h)]
    have hvalF : ∀ q, ¬ ReachW w a q → flood_fill st.1 a st.2 q = st.1 q := by
      intro q h
      unfold flood_fill
      rw [if_neg (fun hm => h ((hchar q).mp hm))]
    refine ⟨⟨by simp only; omega, ?_, ?_, ?_, ?_⟩, ?_⟩
    · intro q
      show flood_fill st.1 a st.2 q = 0 ↔ w q = false
      by_cases hr : ReachW w a q
      · rw [hvalT q hr]
        have hwq : w q = true := by
          rcases reachW_walkable_right hr with rfl | h
          · exact hwa
          · exact h
        constructor
        · intro h; omega
        · intro hwf; rw [hwf] at hwq; cases hwq
      · rw [hvalF q hr]
        exact hzero q
    · intro q
      show flood_fill st.1 a st.2 q < st.2 + 1
      by_cases hr : ReachW w a q
      · rw [hvalT q hr]; omega
      · rw [hvalF q hr]; have := hlt q; omega
    · intro q q' h2 hreach
      show flood_fill st.1 a st.2 q' = flood_fill st.1 a st.2 q
      simp only at h2
      by_cases hr : ReachW w a q
      · rw [hvalT q hr, hvalT q' (reachW_trans hr hreach)]
      · have hr' : ¬ ReachW w a q' := fun h => hr (reachW_trans h (reachW_symm hreach))
        rw [hvalF q hr] at h2
        rw [hvalF q' hr', hvalF q hr]
        exact hunif q q' h2 hreach
    · intro q q' h2 heq
      simp only at h2 heq
      by_cases hr : ReachW w a q <;> by_cases hr' : ReachW w a q'
      · exact reachW_trans (reachW_symm hr) hr'
      · exfalso
        rw [hvalT q hr] at h2 heq
        rw [hvalF q' hr'] at heq
        have := hlt q'
        omega
      · exfalso
        rw [hvalF q hr] at h2 heq
        rw [hvalT q' hr'] at heq
        have := hlt q
        omega
      · rw [hvalF q hr] at h2 heq
        rw [hvalF q' hr'] at heq
        exact hinj q q' h2 heq
    · rw [hvalT a Relation.ReflTransGen.refl]
      omega
  · have hempty : ∀ q, q ∉ floodSet st.1 a := by
      intro q hm
      obtain ⟨r, hadj, har, -⟩ := reach1_of_mem_floodSet hm
      have hwr : w r = true :=
        walkable_of_val_ne_zero ⟨hn2, hzero, hlt, hunif, hinj⟩ (by omega)
      have hru : st.1 r = st.1 a :=
        hunif a r hhigh (Relation.ReflTransGen.single ⟨hwa, hwr, hadj⟩)
      omega
    have hval : ∀ q, flood_fill st.1 a st.2 q = st.1 q := by
      intro q
      unfold flood_fill
      rw [if_neg (hempty q)]
    refine ⟨⟨by simp only; omega, ?_, ?_, ?_, ?_⟩, ?_⟩
    · intro q
      show flood_fill st.1 a st.2 q = 0 ↔ w q = false
      rw [hval]; exact hzero q
    · intro q
      show flood_fill st.1 a st.2 q < st.2 + 1
      rw [hval]; have := hlt q; omega
    · intro q q' h2 hreach
      show flood_fill st.1 a st.2 q' = flood_fill st.1 a st.2 q
      simp only at h2
      rw [hval] at h2
      rw [hval, hval]
      exact hunif q q' h2 hreach
    · intro q q' h2 heq
      simp only at h2 heq
      rw [hval] at h2 heq
      rw [hval q'] at heq
      exact hinj q q' h2 heq
    · rw [hval a]; exact hhigh

theorem fold_preserve_high {R C : Nat} :
    ∀ (rooms : List (String × Pos R C)) (st : (Pos R C → Nat) × Nat) (q : Pos R C),
      2 ≤ st.1 q →
      (rooms.foldl (fun st r => (flood_fill st.1 r.2 st.2, st.2 + 1)) st).1 q = st.1 q := by
  intro rooms
  induction rooms with
  | nil => intro st q _; rfl
  | cons r rooms ih =>
      intro st q h2
      rw [List.foldl_cons]
      have hpres : flood_fill st.1 r.2 st.2 q = st.1 q :=
        flood_fill_preserve st.1 r.2 st.2 (by omega)
      rw [ih (flood_fill st.1 r.2 st.2, st.2 + 1) q (by simp only; omega)]
      exact hpres

theorem label_rooms_fold {R C : Nat} (w : Pos R C → Bool) :
    ∀ (rooms : List (String × Pos R C)) (st : (Pos R C → Nat) × Nat),
      LRInv w st →
      (∀ r ∈ rooms, w r.2 = true ∧ ∃ b, Adj r.2 b ∧ w b = true) →
      LRInv w (rooms.foldl (fun st r => (flood_fill st.1 r.2 st.2, st.2 + 1)) st) ∧
      ∀ r ∈ rooms,
        2 ≤ (rooms.foldl (fun st r => (flood_fill st.1 r.2 st.2, st.2 + 1)) st).1 r.2 := by
  intro rooms
  induction rooms with
  | nil =>
      intro st hinv _
      exact ⟨hinv, by intro r hr; cases hr⟩
  | cons r rooms ih =>
      intro st hinv hrm
      have hr := hrm r (List.mem_cons_self r rooms)
      obtain ⟨hinv', hanch⟩ := label_rooms_step hinv hr.1 hr.2
      have hrm' : ∀ x ∈ rooms, w x.2 = true ∧ ∃ b, Adj x.2 b ∧ w b = true :=
        fun x hx => hrm x (List.mem_cons_of_mem r hx)
      obtain ⟨hfin, hrest⟩ := ih (flood_fill st.1 r.2 st.2, st.2 + 1) hinv' hrm'
      rw [List.foldl_cons]
      refine ⟨hfin, ?_⟩
      intro x hx
      rcases List.mem_cons.mp hx with rfl | hx'
      · have := fold_preserve_high rooms (flood_fill st.1 x.2 st.2, st.2 + 1) x.2 hanch
        rw [this]
        exact hanch
      · exact hrest x hx'

theorem label_rooms_mask {R C : Nat} (w : Pos R C → Bool)
    (rooms : List (String × Pos R C))
    (hrm : ∀ r ∈ rooms, w r.2 = true ∧ ∃ b, Adj r.2 b ∧ w b = true) :
    ∀ r ∈ rooms, ∀ q,
      (label_rooms w rooms q = label_rooms w rooms r.2 ↔ ReachW w r.2 q) := by
  obtain ⟨⟨-, -, -, hunif, hinj⟩, hanch⟩ :=
    label_rooms_fold w rooms ((fun p => if w p then 1 else 0), 2) (LRInv_init w) hrm
  intro r hr q
  have h2 := hanch r hr
  constructor
  · intro heq
    exact hinj r.2 q h2 heq.symm
  · intro hreach
    exact hunif r.2 q h2 hreach

theorem labelAt_mask {R C : Nat} (w : Pos R C → Bool) {a : Pos R C}
    (hwa : w a = true) :
    ∀ q, (labelAt w q = labelAt w a ↔ ReachW w a q) := by
  intro q
  by_cases hwq : w q = true
  · rw [labelAt_eq_iff hwq hwa]
    exact ⟨fun h => reachW_symm h, fun h => reachW_symm h⟩
  · have hq0 : labelAt w q = 0 := labelAt_of_wall (Bool.not_eq_true (w q) ▸ hwq)
    constructor
    · intro h
      rw [hq0] at h
      have := labelAt_pos hwa
      omega
    · intro h
      exfalso
      rcases reachW_walkable_right h with rfl | hw
      · exact hwq hwa
      · exact hwq hw

theorem countsOfLabel_congr {R C : Nat} (g : List (List Char)) (l1 l2 : Pos R C → Nat)
    (L1 L2 : Nat) (h : ∀ q, l1 q = L1 ↔ l2 q = L2) :
    countsOfLabel g l1 L1 = countsOfLabel g l2 L2 := by
  unfold countsOfLabel regionCount
  have hf : ∀ ch : Char,
      Finset.univ.filter (fun q : Pos R C => l1 q = L1 ∧ cellAt g q = ch) =
      Finset.univ.filter (fun q : Pos R C => l2 q = L2 ∧ cellAt g q = ch) := by
    intro ch
    apply Finset.filter_congr
    intro q _
    rw [h q]
  rw [hf 'W', hf 'P', hf 'S', hf 'C']

theorem foldl_congr_on {α β : Type} (f f' : β → α → β) :
    ∀ (l : List α) (b : β), (∀ x ∈ l, ∀ acc, f acc x = f' acc x) →
      l.foldl f b = l.foldl f' b := by
  intro l
  induction l with
  | nil => intro b _; rfl
  | cons x l ih =>
      intro b h
      rw [List.foldl_cons, List.foldl_cons, h x (List.mem_cons_self x l)]
      exact ih _ (fun y hy acc => h y (List.mem_cons_of_mem x hy) acc)

theorem count_chairs_congr {R C : Nat} (g : List (List Char)) (l1 l2 : Pos R C → Nat)
    (rooms : List (String × Pos R C))
    (h : ∀ r ∈ rooms, countsOfLabel g l1 (l1 r.2) = countsOfLabel g l2 (l2 r.2)) :
    count_chairs g l1 rooms = count_chairs g l2 rooms := by
  unfold count_chairs
  apply foldl_congr_on
  intro r hr acc
  rw [h r hr]

theorem wall_of_not_walkable {R C : Nat} {g : List (List Char)} {q : Pos R C}
    (h : walkableOf g q = false) : cellAt g q ∈ WALL_CHARS := by
  unfold walkableOf at h
  simp only [Bool.not_eq_false'] at h
  simpa using h

theorem regionCount_zero_label {R C : Nat} (g : List (List Char)) (ch : Char)
    (hch : ch ∉ WALL_CHARS) :
    regionCount g (labelAt (walkableOf g : Pos R C → Bool)) 0 ch = 0 := by
  unfold regionCount
  convert Finset.card_empty
  rw [Finset.filter_eq_empty_iff]
  intro q _
  rintro ⟨h0, hcell⟩
  have hw : walkableOf g q = false := by
    rcases Bool.eq_false_or_eq_true (walkableOf g q) with ht | hf
    · exfalso
      have h1 : 0 < labelAt (walkableOf g) q := labelAt_pos ht
      omega
    · exact hf
  have := wall_of_not_walkable hw
  rw [hcell] at this
  exact hch this

theorem countsOfLabel_zero_label {R C : Nat} (g : List (List Char)) :
    countsOfLabel g (labelAt (walkableOf g : Pos R C → Bool)) 0 = Counts.zero := by
  unfold countsOfLabel Counts.zero
  rw [regionCount_zero_label g 'W' (by decide), regionCount_zero_label g 'P' (by decide),
    regionCount_zero_label g 'S' (by decide), regionCount_zero_label g 'C' (by decide)]

theorem sumCounts_append (l1 l2 : List Counts) :
    sumCounts (l1 ++ l2) = countsAdd (sumCounts l1) (sumCounts l2) := by
  induction l1 with
  | nil => simp [sumCounts, zero_countsAdd]
  | cons a l ih =>
      simp only [List.cons_append, sumCounts, List.foldr_cons] at ih ⊢
      rw [ih, countsAdd_assoc]

/-! ### The Room Locator -/

/-- Split a character list at its first `)`: the characters before it and
the remainder after it (the greedy `[^)]+` run inspected by the regex). -/
def splitRparen : List Char → Option (List Char × List Char)
  | [] => none
  | c :: rest =>
      if c = ')' then some ([], rest)
      else (splitRparen rest).map (fun pr => (c :: pr.1, pr.2))

theorem splitRparen_spec :
    ∀ (l nm rest' : List Char), splitRparen l = some (nm, rest') →
      l = nm ++ ')' :: rest' := by
  intro l
  induction l with
  | nil =>
      intro nm rest' h
      simp [splitRparen] at h
  | cons c rest ih =>
      intro nm rest' h
      by_cases hc : c = ')'
      · subst hc
        rw [splitRparen, if_pos rfl] at h
        have h' := Option.some.inj h
        have h1 : nm = [] := (Prod.mk.inj h').1.symm
        have h2 : rest' = rest := (Prod.mk.inj h').2.symm
        subst h1
        subst h2
        simp
      · rw [splitRparen, if_neg hc] at h
        cases hsp : splitRparen rest with
        | none =>
            rw [hsp] at h
            exact Option.noConfusion h
        | some pr =>
            rw [hsp] at h
            obtain ⟨nm0, rest0⟩ := pr
            have h' := Option.some.inj h
            have h1 : nm = c :: nm0 := (Prod.mk.inj h').1.symm
            have h2 : rest' = rest0 := (Prod.mk.inj h').2.symm
            subst h1
            subst h2
            have := ih nm0 rest' hsp
            rw [this]
            simp

/-- One row of `re.finditer(r"\(([^)]+)\)", line)` from `find_rooms`:
scan left to right; at each `(`, the regex matches iff a nonempty run of
non-`)` characters followed by `)` starts right after it; on a match the
group and the match start column are emitted and scanning resumes after
the closing `)`, otherwise it resumes at the next column.  `fuel` bounds
the recursion and is always at least the remaining length. -/
def findMatchesAux : Nat → List Char → Nat → List (String × Nat)
  | 0, _, _ => []
  | _ + 1, [], _ => []
  | fuel + 1, c :: rest, i =>
      if c = '(' then
        match splitRparen rest with
        | some (nm, rest') =>
            if nm = [] then findMatchesAux fuel rest (i + 1)
            else (String.mk nm, i) :: findMatchesAux fuel rest' (i + nm.length + 2)
        | none => findMatchesAux fuel rest (i + 1)
      else findMatchesAux fuel rest (i + 1)

/-- All regex matches of one grid row, as (name, start column) pairs. -/
def lineMatches (cs : List Char) : List (String × Nat) :=
  findMatchesAux cs.length cs 0

theorem findMatchesAux_spec :
    ∀ (fuel : Nat) (cs : List Char) (i : Nat), ∀ e ∈ findMatchesAux fuel cs i,
      ∃ k nm tail, e.2 = i + k ∧ e.1 = String.mk nm ∧ nm ≠ [] ∧
        cs.drop k = '(' :: (nm ++ ')' :: tail) := by
  intro fuel
  induction fuel with
  | zero =>
      intro cs i e he
      simp [findMatchesAux] at he
  | succ fuel ih =>
      intro cs i e he
      match cs with
      | [] => simp [findMatchesAux] at he
      | c :: rest =>
          by_cases hc : c = '('
          · subst hc
            rw [findMatchesAux, if_pos rfl] at he
            cases hsp : splitRparen rest with
            | none =>
                rw [hsp] at he
                have he' : e ∈ findMatchesAux fuel rest (i + 1) := he
                obtain ⟨k, nm, tail, h1, h2, h3, h4⟩ := ih rest (i + 1) e he'
                exact ⟨k + 1, nm, tail, by omega, h2, h3, by
                  rw [List.drop_succ_cons]; exact h4⟩
            | some pr =>
                obtain ⟨nm0, rest0⟩ := pr
                rw [hsp] at he
                have he2 : e ∈ (if nm0 = [] then findMatchesAux fuel rest (i + 1)
                    else (String.mk nm0, i) ::
                      findMatchesAux fuel rest0 (i + nm0.length + 2)) := he
                by_cases hnm : nm0 = []
                · rw [if_pos hnm] at he2
                  obtain ⟨k, nm, tail, h1, h2, h3, h4⟩ := ih rest (i + 1) e he2
                  exact ⟨k + 1, nm, tail, by omega, h2, h3, by
                    rw [List.drop_succ_cons]; exact h4⟩
                · rw [if_neg hnm] at he2
                  have hrest : rest = nm0 ++ ')' :: rest0 :=
                    splitRparen_spec rest nm0 rest0 hsp
                  rcases List.mem_cons.mp he2 with heq | he'
                  · subst heq
                    exact ⟨0, nm0, rest0, by omega, rfl, hnm, by
                      rw [List.drop_zero, hrest]⟩
                  · obtain ⟨k, nm, tail, h1, h2, h3, h4⟩ :=
                      ih rest0 (i + nm0.length + 2) e he'
                    refine ⟨nm0.length + 2 + k, nm, tail, by omega, h2, h3, ?_⟩
                    have hstep : ('(' :: rest).drop (nm0.length + 2 + k) =
                        rest0.drop k := by
                      rw [hrest]
                      have harith : nm0.length + 2 + k = nm0.length + (1 + k) + 1 := by
                        omega
                      rw [harith]
                      rw [List.drop_succ_cons]
                      rw [List.drop_append]
                      rw [Nat.add_comm 1 k]
                      rw [List.drop_succ_cons]
                    rw [hstep]
                    exact h4
          · rw [findMatchesAux, if_neg hc] at he
            obtain ⟨k, nm, tail, h1, h2, h3, h4⟩ := ih rest (i + 1) e he
            exact ⟨k + 1, nm, tail, by omega, h2, h3, by
              rw [List.drop_succ_cons]; exact h4⟩

theorem lineMatches_spec (cs : List Char) :
    ∀ e ∈ lineMatches cs,
      ∃ nm tail, e.1 = String.mk nm ∧ nm ≠ [] ∧
        cs.drop e.2 = '(' :: (nm ++ ')' :: tail) := by
  intro e he
  obtain ⟨k, nm, tail, h1, h2, h3, h4⟩ := findMatchesAux_spec cs.length cs 0 e he
  refine ⟨nm, tail, h2, h3, ?_⟩
  rw [h1, Nat.zero_add]
  exact h4

/-- Room Locator, from `find_rooms` in src/main.py: for each row in order,
scan the joined line with the regex and execute `rooms[name] = (row, start)`;
a later duplicate name overwrites the earlier entry in place. -/
def find_rooms (g : List (List Char)) : List (String × (Nat × Nat)) :=
  (g.foldl (fun st row =>
    ((lineMatches row).foldl (fun m e => dictInsert m e.1 (st.2, e.2)) st.1, st.2 + 1))
    ([], 0)).1

theorem dictInsert_entries {α : Type} (m : List (String × α)) (k : String) (v : α) :
    ∀ e ∈ dictInsert m k v, e ∈ m ∨ e = (k, v) := by
  intro e he
  unfold dictInsert at he
  by_cases hany : m.any (fun e => e.1 == k)
  · rw [if_pos hany] at he
    rcases List.mem_map.mp he with ⟨x, hx, hxe⟩
    by_cases hxk : x.1 == k
    · rw [if_pos hxk] at hxe
      exact Or.inr hxe.symm
    · rw [if_neg hxk] at hxe
      exact Or.inl (hxe ▸ hx)
  · rw [if_neg hany] at he
    rcases List.mem_append.mp he with h | h
    · exact Or.inl h
    · exact Or.inr (List.mem_singleton.mp h)

theorem row_fold_entries (ri : Nat) :
    ∀ (ms : List (String × Nat)) (m : List (String × (Nat × Nat))),
      ∀ e ∈ ms.foldl (fun m e => dictInsert m e.1 (ri, e.2)) m,
        e ∈ m ∨ ∃ x ∈ ms, e = (x.1, (ri, x.2)) := by
  intro ms
  induction ms with
  | nil => intro m e he; exact Or.inl he
  | cons x ms ih =>
      intro m e he
      rw [List.foldl_cons] at he
      rcases ih (dictInsert m x.1 (ri, x.2)) e he with h | ⟨y, hy, hey⟩
      · rcases dictInsert_entries m x.1 (ri, x.2) e h with h' | h'
        · exact Or.inl h'
        · exact Or.inr ⟨x, List.mem_cons_self x ms, h'⟩
      · exact Or.inr ⟨y, List.mem_cons_of_mem x hy, hey⟩

theorem grid_fold_entries :
    ∀ (rows : List (List Char)) (m : List (String × (Nat × Nat))) (r0 : Nat),
      ∀ e ∈ (rows.foldl (fun st row =>
          ((lineMatches row).foldl (fun m e => dictInsert m e.1 (st.2, e.2)) st.1,
           st.2 + 1)) (m, r0)).1,
        e ∈ m ∨ ∃ j row, rows[j]? = some row ∧
          ∃ x ∈ lineMatches row, e = (x.1, (r0 + j, x.2)) := by
  intro rows
  induction rows with
  | nil => intro m r0 e he; exact Or.inl he
  | cons row rows ih =>
      intro m r0 e he
      rw [List.foldl_cons] at he
      rcases ih _ (r0 + 1) e he with h | ⟨j, row', hj, x, hx, hex⟩
      · rcases row_fold_entries r0 (lineMatches row) m e h with h' | ⟨x, hx, hex⟩
        · exact Or.inl h'
        · exact Or.inr ⟨0, row, by simp, x, hx, by rw [hex, Nat.add_zero]⟩
      · refine Or.inr ⟨j + 1, row', ?_, x, hx, ?_⟩
        · rw [List.getElem?_cons_succ]
          exact hj
        · rw [hex]
          have : r0 + 1 + j = r0 + (j + 1) := by omega
          rw [this]

/-- Every room recorded by the Room Locator: its name is the nonempty group
of a regex match, and its stored position is the cell of the opening
parenthesis, with the name's characters starting one cell to the right. -/
theorem find_rooms_spec (g : List (List Char)) :
    ∀ e ∈ find_rooms g, ∃ row nm tail, g[e.2.1]? = some row ∧
      e.1 = String.mk nm ∧ nm ≠ [] ∧
      row.drop e.2.2 = '(' :: (nm ++ ')' :: tail) := by
  intro e he
  unfold find_rooms at he
  rcases grid_fold_entries g [] 0 e he with h | ⟨j, row, hj, x, hx, hex⟩
  · cases h
  · obtain ⟨nm, tail, h1, h2, h3⟩ := lineMatches_spec row x hx
    refine ⟨row, nm, tail, ?_, ?_, h2, ?_⟩
    · rw [hex]
      simpa using hj
    · rw [hex]
      exact h1
    · rw [hex]
      simpa using h3

theorem dictInsert_keys_nodup {α : Type} (m : List (String × α)) (k : String) (v : α)
    (h : (m.map Prod.fst).Nodup) : ((dictInsert m k v).map Prod.fst).Nodup := by
  unfold dictInsert
  by_cases hany : m.any (fun e => e.1 == k)
  · rw [if_pos hany]
    have heq : (m.map (fun e => if e.1 == k then (k, v) else e)).map Prod.fst =
        m.map Prod.fst := by
      rw [List.map_map]
      apply List.map_congr_left
      intro e _
      by_cases hek : e.1 == k
      · simp only [Function.comp_apply, if_pos hek]
        exact (eq_of_beq hek).symm
      · simp only [Function.comp_apply, if_neg hek]
    rw [heq]
    exact h
  · rw [if_neg hany]
    rw [List.map_append, List.nodup_append]
    refine ⟨h, by simp, ?_⟩
    intro a ha hb
    simp only [List.map_cons, List.map_nil, List.mem_singleton] at hb
    subst hb
    rcases List.mem_map.mp ha with ⟨e, he, hek⟩
    apply hany
    rw [List.any_eq_true]
    exact ⟨e, he, by simp [hek]⟩

theorem row_fold_keys_nodup (ri : Nat) :
    ∀ (ms : List (String × Nat)) (m : List (String × (Nat × Nat))),
      (m.map Prod.fst).Nodup →
      ((ms.foldl (fun m e => dictInsert m e.1 (ri, e.2)) m).map Prod.fst).Nodup := by
  intro ms
  induction ms with
  | nil => intro m h; exact h
  | cons x ms ih =>
      intro m h
      rw [List.foldl_cons]
      exact ih _ (dictInsert_keys_nodup m x.1 (ri, x.2) h)

theorem grid_fold_keys_nodup :
    ∀ (rows : List (List Char)) (m : List (String × (Nat × Nat))) (r0 : Nat),
      (m.map Prod.fst).Nodup →
      (((rows.foldl (fun st row =>
          ((lineMatches row).foldl (fun m e => dictInsert m e.1 (st.2, e.2)) st.1,
           st.2 + 1)) (m, r0)).1).map Prod.fst).Nodup := by
  intro rows
  induction rows with
  | nil => intro m r0 h; exact h
  | cons row rows ih =>
      intro m r0 h
      rw [List.foldl_cons]
      exact ih _ (r0 + 1) (row_fold_keys_nodup r0 (lineMatches row) m h)

theorem find_rooms_keys_nodup (g : List (List Char)) :
    ((find_rooms g).map Prod.fst).Nodup := by
  unfold find_rooms
  exact grid_fold_keys_nodup g [] 0 (by simp)

theorem cellAt_of_getElem {R C : Nat} {g : List (List Char)} {row : List Char}
    {c : Char} (p : Pos R C) (hrow : g[p.1.val]? = some row)
    (hc : row[p.2.val]? = some c) : cellAt g p = c := by
  unfold cellAt
  rw [List.getD_eq_getElem?_getD g p.1.val, hrow, Option.getD_some,
    List.getD_eq_getElem?_getD row p.2.val, hc, Option.getD_some]

/-- The anchor stored for a room sits on the opening parenthesis. -/
theorem find_rooms_anchor_char (g : List (List Char)) :
    ∀ e ∈ find_rooms g, ∃ row, g[e.2.1]? = some row ∧
      row[e.2.2]? = some '(' ∧ e.2.2 < row.length := by
  intro e he
  obtain ⟨row, nm, tail, hrow, -, -, hdrop⟩ := find_rooms_spec g e he
  refine ⟨row, hrow, ?_, ?_⟩
  · have : (row.drop e.2.2)[0]? = some '(' := by rw [hdrop]; simp
    rw [List.getElem?_drop, Nat.add_zero] at this
    exact this
  · by_contra hlen
    push_neg at hlen
    have : row.drop e.2.2 = [] := List.drop_eq_nil_iff.mpr hlen
    rw [this] at hdrop
    cases hdrop

/-! ### The Report Formatter -/

/-- `format_counts` from src/main.py: the four chair counts rendered as
`"<type>: <count>"` joined by `", "` in `CHAIR_TYPES` order. -/
def format_counts (c : Counts) : String :=
  String.intercalate ", "
    (CHAIR_TYPES.map (fun ch => String.singleton ch ++ ": " ++ toString (countsGet c ch)))

/-- `sorted(room_counts.keys())` in `main`. -/
def sortedKeys (rc : List (String × Counts)) : List String :=
  List.insertionSort (fun a b => a ≤ b) (rc.map Prod.fst)

/-- `room_counts[name]` looked up in the per-room results. -/
def lookupCounts (rc : List (String × Counts)) (n : String) : Counts :=
  (rc.lookup n).getD Counts.zero

/-- The report printed by `main` (src/main.py lines 158-162), as its list
of output lines: a `total:` header, the formatted totals, then for each
room in sorted name order a `<name>:` header and its counts line. -/
def renderReport (total : Counts) (rc : List (String × Counts)) : List String :=
  "total:" :: format_counts total ::
    (sortedKeys rc).flatMap (fun n => [n ++ ":", format_counts (lookupCounts rc n)])

theorem sortedKeys_perm (rc : List (String × Counts)) :
    (sortedKeys rc).Perm (rc.map Prod.fst) :=
  List.perm_insertionSort _ _

theorem sortedKeys_sorted_le (rc : List (String × Counts)) :
    List.Sorted (fun a b : String => a ≤ b) (sortedKeys rc) :=
  List.sorted_insertionSort _ _

theorem sortedKeys_sorted_lt (rc : List (String × Counts))
    (h : (rc.map Prod.fst).Nodup) :
    List.Sorted (fun a b : String => a < b) (sortedKeys rc) := by
  have hnd : (sortedKeys rc).Nodup := ((sortedKeys_perm rc).symm.nodup h)
  have hle := sortedKeys_sorted_le rc
  unfold List.Sorted at hle ⊢
  have := List.Pairwise.and hle hnd
  apply this.imp
  intro a b ⟨h1, h2⟩
  exact lt_of_le_of_ne h1 h2

/-! ### Bounds-checked aggregation over raw coordinates -/

/-- Convert a raw (row, col) pair into an in-bounds position, failing out
of bounds — the check numpy performs at `labels[row, col]`. -/
def toPos (R C : Nat) (rc : Nat × Nat) : Option (Pos R C) :=
  if h : rc.1 < R ∧ rc.2 < C then some (⟨rc.1, h.1⟩, ⟨rc.2, h.2⟩) else none

/-- `count_chairs` driven by the raw anchors of `find_rooms`; each numpy
index access is bounds-checked, an out-of-bounds anchor aborts with `none`. -/
def count_chairs_checked {R C : Nat} (g : List (List Char)) (labels : Pos R C → Nat)
    (rooms : List (String × (Nat × Nat))) : Option (Counts × List (String × Counts)) :=
  rooms.foldlM (fun st r =>
    (toPos R C r.2).map (fun p =>
      (countsAdd st.1 (countsOfLabel g labels (labels p)),
       dictInsert st.2 r.1 (countsOfLabel g labels (labels p)))))
    (Counts.zero, [])

theorem count_chairs_checked_total {R C : Nat} (g : List (List Char))
    (labels : Pos R C → Nat) :
    ∀ (rooms : List (String × (Nat × Nat))) (acc : Counts × List (String × Counts)),
      (∀ r ∈ rooms, r.2.1 < R ∧ r.2.2 < C) →
      ∃ res, rooms.foldlM (fun st r =>
        (toPos R C r.2).map (fun p =>
          (countsAdd st.1 (countsOfLabel g labels (labels p)),
           dictInsert st.2 r.1 (countsOfLabel g labels (labels p))))) acc = some res := by
  intro rooms
  induction rooms with
  | nil => intro acc _; exact ⟨acc, rfl⟩
  | cons r rooms ih =>
      intro acc hb
      have hr := hb r (List.mem_cons_self r rooms)
      rw [List.foldlM_cons]
      rw [toPos, dif_pos hr]
      exact ih _ (fun x hx => hb x (List.mem_cons_of_mem r hx))

/-! ### Claim theorems -/

/-- C1: for every grid, the Label Grid produced by the Region Labeler on
the grid's walkable mask maps every non-walkable cell to 0, every walkable
cell to a positive integer, and two walkable cells to the same label iff
they are connected by a path of walkable cells under 4-directional
adjacency. -/
theorem labeler_partition_correct {R C : Nat} (g : List (List Char)) (p q : Pos R C) :
    (walkableOf g p = false → labelAt (walkableOf g) p = 0) ∧
    (walkableOf g p = true → 0 < labelAt (walkableOf g) p) ∧
    (walkableOf g p = true → walkableOf g q = true →
      (labelAt (walkableOf g) p = labelAt (walkableOf g) q ↔
        ReachW (walkableOf g) p q)) :=
  ⟨fun h => labelAt_of_wall h, fun h => labelAt_pos h,
   fun hp hq => labelAt_eq_iff hp hq⟩

/-- Witness for C1 on the 1×3 grid `+..`: the wall cell gets 0, a walkable
cell gets a positive label, and two walkable cells share a label iff
connected. -/
theorem labeler_partition_correct_witness :
    labelAt (walkableOf [['+', ' ', ' ']]) ((0 : Fin 1), (0 : Fin 3)) = 0 ∧
    0 < labelAt (walkableOf [['+', ' ', ' ']]) ((0 : Fin 1), (1 : Fin 3)) ∧
    (labelAt (walkableOf [['+', ' ', ' ']]) ((0 : Fin 1), (1 : Fin 3)) =
        labelAt (walkableOf [['+', ' ', ' ']]) ((0 : Fin 1), (2 : Fin 3)) ↔
      ReachW (walkableOf [['+', ' ', ' ']]) ((0 : Fin 1), (1 : Fin 3))
        ((0 : Fin 1), (2 : Fin 3))) :=
  ⟨(labeler_partition_correct [['+', ' ', ' ']] ((0 : Fin 1), (0 : Fin 3))
      ((0 : Fin 1), (0 : Fin 3))).1 (by decide),
   (labeler_partition_correct [['+', ' ', ' ']] ((0 : Fin 1), (1 : Fin 3))
      ((0 : Fin 1), (2 : Fin 3))).2.1 (by decide),
   (labeler_partition_correct [['+', ' ', ' ']] ((0 : Fin 1), (1 : Fin 3))
      ((0 : Fin 1), (2 : Fin 3))).2.2 (by decide) (by decide)⟩

/-- C2 counterexample: on the grid `(a)` the Room Locator stores anchor
(0, 0) — the opening parenthesis cell — not (0, 1), the cell of the first
character of the name, so the claim as stated is false. -/
theorem anchor_first_char_counterexample :
    find_rooms [['(', 'a', ')']] = [("a", (0, 0))] ∧
      ((0, 0) : Nat × Nat) ≠ ((0, 1) : Nat × Nat) := by
  constructor
  · decide
  · decide

/-- C2 amended: the stored anchor position is the cell containing the
opening parenthesis itself; the first character of the room's name sits in
the cell immediately to its right. -/
theorem anchor_is_open_paren (g : List (List Char)) :
    ∀ e ∈ find_rooms g, ∃ row, g[e.2.1]? = some row ∧
      row[e.2.2]? = some '(' ∧
      ∃ c cs, e.1 = String.mk (c :: cs) ∧ row[e.2.2 + 1]? = some c := by
  intro e he
  obtain ⟨row, nm, tail, hrow, hname, hne, hdrop⟩ := find_rooms_spec g e he
  refine ⟨row, hrow, ?_, ?_⟩
  · have h0 : (row.drop e.2.2)[0]? = some '(' := by rw [hdrop]; simp
    rw [List.getElem?_drop, Nat.add_zero] at h0
    exact h0
  · match nm, hne with
    | c :: cs, _ =>
        refine ⟨c, cs, hname, ?_⟩
        have h1 : (row.drop e.2.2)[1]? = some c := by
          rw [hdrop]
          simp
        rw [List.getElem?_drop] at h1
        exact h1

/-- Witness for C2 amended at the grid `(a)`. -/
theorem anchor_is_open_paren_witness :
    ∃ row, [['(', 'a', ')']][(("a", (0, 0)) : String × Nat × Nat).2.1]? = some row ∧
      row[(("a", (0, 0)) : String × Nat × Nat).2.2]? = some '(' ∧
      ∃ c cs, (("a", (0, 0)) : String × Nat × Nat).1 = String.mk (c :: cs) ∧
        row[(("a", (0, 0)) : String × Nat × Nat).2.2 + 1]? = some c :=
  anchor_is_open_paren [['(', 'a', ')']] ("a", (0, 0)) (by decide)

/-- C3 counterexample: the grid `()` contains an empty parenthesized
annotation, yet the Room Locator stores no room at all — the regex
`\(([^)]+)\)` requires a nonempty name — so the claim is false. -/
theorem empty_name_counterexample : find_rooms [['(', ')']] = [] := by decide

/-- C3 amended: empty annotations `()` are never recorded; every room name
stored by the Room Locator is a nonempty string. -/
theorem room_names_nonempty (g : List (List Char)) :
    ∀ e ∈ find_rooms g, e.1 ≠ "" := by
  intro e he
  obtain ⟨row, nm, tail, -, hname, hne, -⟩ := find_rooms_spec g e he
  rw [hname]
  intro h
  apply hne
  have := congrArg String.data h
  simpa using this

/-- Witness for C3 amended at the grid `(a)`. -/
theorem room_names_nonempty_witness : (("a", ((0, 0) : Nat × Nat)) : String × Nat × Nat).1 ≠ "" :=
  room_names_nonempty [['(', 'a', ')']] ("a", (0, 0)) (by decide)

/-- C6: on any walkable mask the Region Labeler is deterministic and
assigns labels in increasing order of row-major first discovery starting
at 1: a walkable cell's label is one more than the number of components
discovered strictly earlier in the scan, labels grow with the discovery
index, and equal masks give identical label grids. -/
theorem labeler_rowmajor_order {R C : Nat} (w w' : Pos R C → Bool) (p q : Pos R C) :
    (w p = true → labelAt w p = 1 + repCount w (repIdx w p)) ∧
    (w p = true → w q = true → repIdx w p < repIdx w q →
      labelAt w p < labelAt w q) ∧
    (w = w' → labelAt w p = labelAt w' p) := by
  refine ⟨fun hw => labelAt_of_walkable hw, ?_, fun h => by rw [h]⟩
  intro hp hq hlt
  rw [labelAt_of_walkable hp, labelAt_of_walkable hq]
  obtain ⟨r, hr, hridx⟩ := exists_rep_cell w p
  obtain ⟨hwr, hrrep⟩ := rep_cell_is_rep hp hr hridx
  have hmono := repCount_strict_mono hwr hrrep (show idx r < repIdx w q by omega)
  rw [hridx] at hmono
  omega

/-- Witness for C6 on the 1×3 mask of `.+.`: the first component is
labeled 1, the later-discovered one larger. -/
theorem labeler_rowmajor_order_witness :
    labelAt (walkableOf [[' ', '+', ' ']] : Pos 1 3 → Bool) ((0 : Fin 1), (0 : Fin 3)) =
      1 + repCount (walkableOf [[' ', '+', ' ']] : Pos 1 3 → Bool)
        (repIdx (walkableOf [[' ', '+', ' ']] : Pos 1 3 → Bool)
          ((0 : Fin 1), (0 : Fin 3))) ∧
    labelAt (walkableOf [[' ', '+', ' ']] : Pos 1 3 → Bool) ((0 : Fin 1), (0 : Fin 3)) <
      labelAt (walkableOf [[' ', '+', ' ']] : Pos 1 3 → Bool) ((0 : Fin 1), (2 : Fin 3)) ∧
    labelAt (walkableOf [[' ', '+', ' ']] : Pos 1 3 → Bool) ((0 : Fin 1), (0 : Fin 3)) =
      labelAt (walkableOf [[' ', '+', ' ']] : Pos 1 3 → Bool) ((0 : Fin 1), (0 : Fin 3)) :=
  ⟨(labeler_rowmajor_order (walkableOf [[' ', '+', ' ']] : Pos 1 3 → Bool)
      (walkableOf [[' ', '+', ' ']])
      ((0 : Fin 1), (0 : Fin 3)) ((0 : Fin 1), (2 : Fin 3))).1 (by decide),
   (labeler_rowmajor_order (walkableOf [[' ', '+', ' ']] : Pos 1 3 → Bool)
      (walkableOf [[' ', '+', ' ']])
      ((0 : Fin 1), (0 : Fin 3)) ((0 : Fin 1), (2 : Fin 3))).2.1 (by decide) (by decide)
      (by decide),
   (labeler_rowmajor_order (walkableOf [[' ', '+', ' ']] : Pos 1 3 → Bool)
      (walkableOf [[' ', '+', ' ']])
      ((0 : Fin 1), (0 : Fin 3)) ((0 : Fin 1), (2 : Fin 3))).2.2 rfl⟩

/-- C4: when two different room names resolve to the same positive label,
the Chair Aggregator reports the full per-type counts of the shared region
for each room independently and adds each separately into the totals, so
for every chair type the reported total is the sum over all reported rooms
of that room's count. -/
theorem shared_label_double_count {R C : Nat} (g : List (List Char))
    (labels : Pos R C → Nat) (rooms : List (String × Pos R C))
    (hnd : (rooms.map Prod.fst).Nodup) (n1 n2 : String) (p1 p2 : Pos R C)
    (h1 : (n1, p1) ∈ rooms) (h2 : (n2, p2) ∈ rooms) (hne : n1 ≠ n2)
    (hlab : labels p1 = labels p2) (hpos : 0 < labels p1) :
    (count_chairs g labels rooms).2.lookup n1 =
        some (countsOfLabel g labels (labels p1)) ∧
    (count_chairs g labels rooms).2.lookup n2 =
        some (countsOfLabel g labels (labels p1)) ∧
    ∀ ch, countsGet (count_chairs g labels rooms).1 ch =
      ((count_chairs g labels rooms).2.map (fun e => countsGet e.2 ch)).sum := by
  refine ⟨?_, ?_, ?_⟩
  · rw [count_chairs_snd g labels rooms hnd]
    exact lookup_map_rooms g labels rooms hnd h1
  · rw [count_chairs_snd g labels rooms hnd, hlab]
    exact lookup_map_rooms g labels rooms hnd h2
  · intro ch
    rw [count_chairs_fst, count_chairs_snd g labels rooms hnd, countsGet_sum,
      List.map_map, List.map_map]
    rfl

/-- Witness for C4: two rooms in the single open region of the 1×2 grid of
blanks share label 1, and both report the region's counts. -/
theorem shared_label_double_count_witness :
    (count_chairs [[' ', ' ']] (labelAt (walkableOf [[' ', ' ']]))
        ([("a", ((0 : Fin 1), (0 : Fin 2))), ("b", ((0 : Fin 1), (1 : Fin 2)))])).2.lookup
        "a" =
      some (countsOfLabel [[' ', ' ']] (labelAt (walkableOf [[' ', ' ']] : Pos 1 2 → Bool))
        (labelAt (walkableOf [[' ', ' ']]) ((0 : Fin 1), (0 : Fin 2)))) ∧
    (count_chairs [[' ', ' ']] (labelAt (walkableOf [[' ', ' ']]))
        ([("a", ((0 : Fin 1), (0 : Fin 2))), ("b", ((0 : Fin 1), (1 : Fin 2)))])).2.lookup
        "b" =
      some (countsOfLabel [[' ', ' ']] (labelAt (walkableOf [[' ', ' ']] : Pos 1 2 → Bool))
        (labelAt (walkableOf [[' ', ' ']]) ((0 : Fin 1), (0 : Fin 2)))) ∧
    ∀ ch, countsGet (count_chairs [[' ', ' ']] (labelAt (walkableOf [[' ', ' ']]))
        ([("a", ((0 : Fin 1), (0 : Fin 2))), ("b", ((0 : Fin 1), (1 : Fin 2)))])).1 ch =
      ((count_chairs [[' ', ' ']] (labelAt (walkableOf [[' ', ' ']]))
        ([("a", ((0 : Fin 1), (0 : Fin 2))),
          ("b", ((0 : Fin 1), (1 : Fin 2)))])).2.map (fun e => countsGet e.2 ch)).sum :=
  shared_label_double_count [[' ', ' ']] (labelAt (walkableOf [[' ', ' ']]))
    ([("a", ((0 : Fin 1), (0 : Fin 2))), ("b", ((0 : Fin 1), (1 : Fin 2)))])
    (by decide) "a" "b" ((0 : Fin 1), (0 : Fin 2)) ((0 : Fin 1), (1 : Fin 2))
    (by decide) (by decide) (by decide) (by decide) (by decide)

/-- C5: a room whose anchor carries label 0 in the Label Grid derived from
the grid's walkable mask receives all-zero counts for every chair type and
contributes nothing to the running totals. -/
theorem wall_anchor_zero_counts {R C : Nat} (g : List (List Char))
    (pre post : List (String × Pos R C)) (n : String) (a : Pos R C)
    (hnd : ((pre ++ (n, a) :: post).map Prod.fst).Nodup)
    (hlab : labelAt (walkableOf g) a = 0) :
    (count_chairs g (labelAt (walkableOf g)) (pre ++ (n, a) :: post)).2.lookup n =
      some Counts.zero ∧
    (count_chairs g (labelAt (walkableOf g)) (pre ++ (n, a) :: post)).1 =
      (count_chairs g (labelAt (walkableOf g)) (pre ++ post)).1 := by
  have hzero : countsOfLabel g (labelAt (walkableOf g) : Pos R C → Nat)
      (labelAt (walkableOf g) a) = Counts.zero := by
    rw [hlab]
    exact countsOfLabel_zero_label g
  constructor
  · rw [count_chairs_snd g (labelAt (walkableOf g)) (pre ++ (n, a) :: post) hnd]
    have hmem : (n, a) ∈ pre ++ (n, a) :: post := by
      rw [List.mem_append]
      exact Or.inr (List.mem_cons_self _ _)
    have := lookup_map_rooms g (labelAt (walkableOf g)) (pre ++ (n, a) :: post) hnd hmem
    rw [this, hzero]
  · rw [count_chairs_fst, count_chairs_fst, List.map_append, List.map_cons,
      List.map_append, sumCounts_append, sumCounts_append]
    congr 1
    simp only [sumCounts, List.foldr_cons]
    rw [hzero]
    exact zero_countsAdd _

/-- Witness for C5: the room `x` anchored on the wall cell of the grid `+W`
has label 0, reports zero counts, and leaves the total untouched. -/
theorem wall_anchor_zero_counts_witness :
    (count_chairs [['+', 'W']] (labelAt (walkableOf [['+', 'W']]))
        ([] ++ ("x", ((0 : Fin 1), (0 : Fin 2))) :: [])).2.lookup "x" =
      some Counts.zero ∧
    (count_chairs [['+', 'W']] (labelAt (walkableOf [['+', 'W']]))
        ([] ++ ("x", ((0 : Fin 1), (0 : Fin 2))) :: [])).1 =
      (count_chairs [['+', 'W']] (labelAt (walkableOf [['+', 'W']]))
        (([] ++ []) : List (String × Pos 1 2))).1 :=
  wall_anchor_zero_counts [['+', 'W']] [] [] "x" ((0 : Fin 1), (0 : Fin 2))
    (by decide) (by decide)

/-- C7: the rendered report is a `total:` header, the formatted totals
line, then for each room name in strictly increasing lexicographic order a
`<name>:` header followed by its counts line; a counts line shows the four
types as `"<type>: <count>"` joined by `", "` in the fixed order W, P, S, C. -/
theorem report_format_sorted (total : Counts) (rc : List (String × Counts))
    (hnd : (rc.map Prod.fst).Nodup) :
    ∃ ns : List String, ns.Perm (rc.map Prod.fst) ∧
      List.Sorted (fun a b : String => a < b) ns ∧
      renderReport total rc = "total:" :: format_counts total ::
        ns.flatMap (fun n => [n ++ ":", format_counts (lookupCounts rc n)]) ∧
      format_counts total = String.intercalate ", "
        ["W: " ++ toString total.W, "P: " ++ toString total.P,
         "S: " ++ toString total.S, "C: " ++ toString total.C] :=
  ⟨sortedKeys rc, sortedKeys_perm rc, sortedKeys_sorted_lt rc hnd, rfl, rfl⟩

/-- Witness for C7 at a concrete two-room table. -/
theorem report_format_sorted_witness :
    ∃ ns : List String,
      ns.Perm ((([("zoo", Counts.zero), ("bar", ⟨0, 0, 0, 2⟩)]) :
        List (String × Counts)).map Prod.fst) ∧
      List.Sorted (fun a b : String => a < b) ns ∧
      renderReport ⟨2, 0, 0, 2⟩ [("zoo", Counts.zero), ("bar", ⟨0, 0, 0, 2⟩)] =
        "total:" :: format_counts ⟨2, 0, 0, 2⟩ ::
          ns.flatMap (fun n => [n ++ ":",
            format_counts (lookupCounts [("zoo", Counts.zero), ("bar", ⟨0, 0, 0, 2⟩)] n)]) ∧
      format_counts ⟨2, 0, 0, 2⟩ = String.intercalate ", "
        ["W: " ++ toString (2 : Nat), "P: " ++ toString (0 : Nat),
         "S: " ++ toString (0 : Nat), "C: " ++ toString (2 : Nat)] :=
  report_format_sorted ⟨2, 0, 0, 2⟩ [("zoo", Counts.zero), ("bar", ⟨0, 0, 0, 2⟩)]
    (by decide)

/-- C8: on any rectangular grid the Region Labeler and Chair Aggregator
are total — every anchor recorded by the Room Locator is in bounds, and
the bounds-checked aggregation over the located rooms returns a result,
including for grids with zero rooms or no walkable cells. -/
theorem pipeline_total {R C : Nat} (g : List (List Char)) (hrect : Rect g R C) :
    (∀ e ∈ find_rooms g, e.2.1 < R ∧ e.2.2 < C) ∧
    ∃ res, count_chairs_checked g (labelAt (walkableOf g) : Pos R C → Nat)
      (find_rooms g) = some res := by
  obtain ⟨hR, hC⟩ := hrect
  have hb : ∀ e ∈ find_rooms g, e.2.1 < R ∧ e.2.2 < C := by
    intro e he
    obtain ⟨row, hrow, -, hltC⟩ := find_rooms_anchor_char g e he
    obtain ⟨hlt, hget⟩ := List.getElem?_eq_some_iff.mp hrow
    constructor
    · omega
    · have hmem : row ∈ g := by
        rw [← hget]
        exact List.getElem_mem hlt
      rw [← hC row hmem]
      exact hltC
  exact ⟨hb, count_chairs_checked_total g (labelAt (walkableOf g)) (find_rooms g)
    (Counts.zero, []) hb⟩

/-- Witness for C8 on the rectangular grid `(a)`. -/
theorem pipeline_total_witness :
    (∀ e ∈ find_rooms [['(', 'a', ')']], e.2.1 < 1 ∧ e.2.2 < 3) ∧
    ∃ res, count_chairs_checked [['(', 'a', ')']]
      (labelAt (walkableOf [['(', 'a', ')']]) : Pos 1 3 → Nat)
      (find_rooms [['(', 'a', ')']]) = some res :=
  pipeline_total [['(', 'a', ')']] (by constructor <;> decide)

/-- C9: every anchor recorded by the Room Locator sits on a cell holding
`(`, which is not a wall glyph, so the anchor cell is walkable and its
label in the derived Label Grid is positive — the anchor-on-a-wall case
can never arise from this locator. -/
theorem anchor_walkable_positive_label {R C : Nat} (g : List (List Char))
    (hrect : Rect g R C) :
    ∀ e ∈ find_rooms g, ∃ p : Pos R C, toPos R C e.2 = some p ∧
      cellAt g p = '(' ∧ '(' ∉ WALL_CHARS ∧ walkableOf g p = true ∧
      0 < labelAt (walkableOf g) p := by
  intro e he
  obtain ⟨hR, hC⟩ := hrect
  obtain ⟨row, hrow, hpar, hltC⟩ := find_rooms_anchor_char g e he
  obtain ⟨hlt, hget⟩ := List.getElem?_eq_some_iff.mp hrow
  have h1 : e.2.1 < R := by omega
  have h2 : e.2.2 < C := by
    have hmem : row ∈ g := by
      rw [← hget]
      exact List.getElem_mem hlt
    rw [← hC row hmem]
    exact hltC
  have hcell : cellAt g ((⟨e.2.1, h1⟩, ⟨e.2.2, h2⟩) : Pos R C) = '(' :=
    cellAt_of_getElem _ hrow hpar
  have hwalk : walkableOf g ((⟨e.2.1, h1⟩, ⟨e.2.2, h2⟩) : Pos R C) = true := by
    unfold walkableOf
    rw [hcell]
    decide
  refine ⟨(⟨e.2.1, h1⟩, ⟨e.2.2, h2⟩), ?_, hcell, by decide, hwalk, labelAt_pos hwalk⟩
  rw [toPos, dif_pos ⟨h1, h2⟩]

/-- Witness for C9 at the grid `(a)` and its room `a`. -/
theorem anchor_walkable_positive_label_witness :
    ∃ p : Pos 1 3, toPos 1 3 ((("a", (0, 0)) : String × Nat × Nat)).2 = some p ∧
      cellAt [['(', 'a', ')']] p = '(' ∧ '(' ∉ WALL_CHARS ∧
      walkableOf [['(', 'a', ')']] p = true ∧
      0 < labelAt (walkableOf [['(', 'a', ')']]) p :=
  anchor_walkable_positive_label [['(', 'a', ')']] (by constructor <;> decide)
    ("a", (0, 0)) (by decide)

/-- C10 counterexample: on the 1×4 grid `(-)W` with its room mapping
`{"-": (0, 0)}`, the hand-written labeler leaves the isolated anchor at
value 1, so the room's mask is every unflooded walkable cell and its count
includes the `W` of the disconnected region, while the library labeling
gives the room only its own one-cell region — the two pipelines disagree. -/
theorem hand_labeler_counterexample :
    find_rooms [['(', '-', ')', 'W']] = [("-", (0, 0))] ∧
    count_chairs [['(', '-', ')', 'W']]
        (label_rooms (walkableOf [['(', '-', ')', 'W']])
          ([("-", ((0 : Fin 1), (0 : Fin 4)))]))
        [("-", ((0 : Fin 1), (0 : Fin 4)))] ≠
      count_chairs [['(', '-', ')', 'W']]
        (labelAt (walkableOf [['(', '-', ')', 'W']]))
        [("-", ((0 : Fin 1), (0 : Fin 4)))] := by
  constructor
  · decide
  · decide

/-- C10 amended: for every grid and room list in which each anchor is
walkable and has at least one walkable 4-neighbor (the counterexample
shows the claim fails for isolated anchors), running the Chair Aggregator
on the hand-written `label_rooms` labeling produces exactly the same total
and per-room counts as running it on the Region Labeler's labeling. -/
theorem hand_labeler_refines {R C : Nat} (g : List (List Char))
    (rooms : List (String × Pos R C))
    (hrm : ∀ r ∈ rooms, walkableOf g r.2 = true ∧
      ∃ b, Adj r.2 b ∧ walkableOf g b = true) :
    count_chairs g (label_rooms (walkableOf g) rooms) rooms =
      count_chairs g (labelAt (walkableOf g)) rooms := by
  apply count_chairs_congr
  intro r hr
  apply countsOfLabel_congr
  intro q
  have h1 := label_rooms_mask (walkableOf g) rooms hrm r hr q
  have h2 := labelAt_mask (walkableOf g) (hrm r hr).1 q
  exact h1.trans h2.symm

/-- Witness for C10 amended on the grid `(a)` with its single room. -/
theorem hand_labeler_refines_witness :
    count_chairs [['(', 'a', ')']]
        (label_rooms (walkableOf [['(', 'a', ')']])
          ([("a", ((0 : Fin 1), (0 : Fin 3)))]))
        [("a", ((0 : Fin 1), (0 : Fin 3)))] =
      count_chairs [['(', 'a', ')']]
        (labelAt (walkableOf [['(', 'a', ')']]))
        [("a", ((0 : Fin 1), (0 : Fin 3)))] :=
  hand_labeler_refines [['(', 'a', ')']] [("a", ((0 : Fin 1), (0 : Fin 3)))]
    (by decide)
